import Mathlib

/-!
Verification of the decay-structure matching engine of DecFileViewer.

The source under scrutiny is `src/frontend/src/decayMatching.js` (the
canonicalization, tree-equality and weighted containment functions) and the
descriptor parser `parseDecayString` in `src/frontend/src/App.jsx`.

Modelling conventions (shallow embedding of the JavaScript):
- A JavaScript value reaching these functions is `null`, `undefined`, a string,
  or an array of such values.  This is captured by the mutual inductives
  `Item` / `ItemList` below (`ItemList` mirrors a JS array of items).
- Functions whose JS recursion is not structural are defined with an explicit
  fuel argument (suffix `F`) and a wrapper that supplies `isize`
  (the number of constructors) as fuel; fuel never runs out on the wrapper,
  which is proved by the `..._congr` fuel-irrelevance lemmas.
- `String.prototype.localeCompare` (used only as a sort comparator) is modelled
  as lexicographic comparison of Unicode code points (`strLe`).  The default
  locale collation agrees with this model on the relative order of every pair
  of names appearing in concrete theorems below; no theorem depends on the
  specific order of differently-named daughters beyond those pairs.
- `Array.prototype.sort` (ES2019: stable, sorted w.r.t. the comparator) is
  modelled by `List.insertionSort`, which is stable and sorted; a stable sort's
  output is uniquely determined by the comparator, so this is faithful.
- JS exceptions (e.g. calling `.replace` on `undefined`) are modelled by
  `Option` in `decayContains`, the only claim-relevant function that can be
  reached with arbitrary (non-tree) inputs; the remaining functions are, per
  the error-handling contract of the engine, only called on well-formed trees
  (`wf`), on which the source never throws, and are modelled as total
  functions whose value on non-`wf` junk inputs is irrelevant to every theorem.
-/

mutual
inductive Item where
  | vnull : Item
  | vundef : Item
  | str : String → Item
  | arr : ItemList → Item
inductive ItemList where
  | nil : ItemList
  | cons : Item → ItemList → ItemList
end

mutual
def decEqI : (a b : Item) → Decidable (a = b)
  | .vnull, .vnull => isTrue rfl
  | .vnull, .vundef => isFalse (fun h => Item.noConfusion h)
  | .vnull, .str _ => isFalse (fun h => Item.noConfusion h)
  | .vnull, .arr _ => isFalse (fun h => Item.noConfusion h)
  | .vundef, .vnull => isFalse (fun h => Item.noConfusion h)
  | .vundef, .vundef => isTrue rfl
  | .vundef, .str _ => isFalse (fun h => Item.noConfusion h)
  | .vundef, .arr _ => isFalse (fun h => Item.noConfusion h)
  | .str _, .vnull => isFalse (fun h => Item.noConfusion h)
  | .str _, .vundef => isFalse (fun h => Item.noConfusion h)
  | .str s, .str t =>
      match decEq s t with
      | isTrue h => isTrue (h ▸ rfl)
      | isFalse h => isFalse (fun hh => h (Item.str.inj hh))
  | .str _, .arr _ => isFalse (fun h => Item.noConfusion h)
  | .arr _, .vnull => isFalse (fun h => Item.noConfusion h)
  | .arr _, .vundef => isFalse (fun h => Item.noConfusion h)
  | .arr _, .str _ => isFalse (fun h => Item.noConfusion h)
  | .arr l, .arr m =>
      match decEqIL l m with
      | isTrue h => isTrue (h ▸ rfl)
      | isFalse h => isFalse (fun hh => h (Item.arr.inj hh))
def decEqIL : (a b : ItemList) → Decidable (a = b)
  | .nil, .nil => isTrue rfl
  | .nil, .cons _ _ => isFalse (fun h => ItemList.noConfusion h)
  | .cons _ _, .nil => isFalse (fun h => ItemList.noConfusion h)
  | .cons x xs, .cons y ys =>
      match decEqI x y, decEqIL xs ys with
      | isTrue h1, isTrue h2 => isTrue (h1 ▸ h2 ▸ rfl)
      | isFalse h1, _ => isFalse (fun hh => h1 (ItemList.cons.inj hh).1)
      | _, isFalse h2 => isFalse (fun hh => h2 (ItemList.cons.inj hh).2)
end

instance : DecidableEq Item := decEqI
instance : DecidableEq ItemList := decEqIL

mutual
/-- Number of constructors of an item; used as fuel for the non-structural
recursions below. -/
def isize : Item → Nat
  | .vnull => 1
  | .vundef => 1
  | .str _ => 1
  | .arr l => isizeL l + 1
def isizeL : ItemList → Nat
  | .nil => 0
  | .cons x xs => isize x + isizeL xs
end

def toList : ItemList → List Item
  | .nil => []
  | .cons x xs => x :: toList xs

def ofList : List Item → ItemList
  | [] => .nil
  | x :: xs => .cons x (ofList xs)

/-- Convenience constructor: the JS array `[mother, ...daughters]`. -/
def node (m : String) (ds : List Item) : Item := .arr (.cons (.str m) (ofList ds))

/-- The set of characters stripped by `String.prototype.trim`; the names in
this development only ever carry ASCII whitespace. -/
def isJSWhitespace (c : Char) : Bool :=
  c = ' ' || c = '\t' || c = '\n' || c = '\r' || c.toNat = 12 || c.toNat = 11

def trimChars (l : List Char) : List Char :=
  ((l.dropWhile isJSWhitespace).reverse.dropWhile isJSWhitespace).reverse

/-- Scan for the first occurrence of the three characters `]cc` and return the
remainder after it; this is how the lazy regex `\[.*?\]cc` finds the end of a
match that started at an earlier opening bracket. -/
def findCCEnd : List Char → Option (List Char)
  | ']' :: 'c' :: 'c' :: rest => some rest
  | _ :: rest => findCCEnd rest
  | [] => none

/-- Global replacement of the lazy regex `\[.*?\]cc` by the empty string:
left to right, a match starts at an opening bracket and ends at the first
subsequent `]cc`; unmatched characters are kept. -/
def stripCCF : Nat → List Char → List Char
  | 0, l => l
  | fuel+1, l =>
    match l with
    | [] => []
    | '[' :: rest =>
        match findCCEnd rest with
        | some rest2 => stripCCF fuel rest2
        | none => '[' :: stripCCF fuel rest
    | c :: rest => c :: stripCCF fuel rest

def stripCC (l : List Char) : List Char := stripCCF l.length l

/-- String-level core of `normalizeParticleName` from decayMatching.js:
`name.replace(/\[.*?\]cc/g, '').trim()`. -/
def normName (s : String) : String := ⟨trimChars (stripCC s.data)⟩

/-- Source: `normalizeParticleName` (decayMatching.js).  Non-string input is
returned unchanged. -/
def normalizeParticleName : Item → Item
  | .str s => .str (normName s)
  | x => x

/-- Source: `isDecay` (decayMatching.js): `Array.isArray(item)`. -/
def isDecay : Item → Bool
  | .arr _ => true
  | _ => false

/-- The result of `name.replace(/sig$/, "")`: strip one trailing `sig`. -/
def stripSig (s : String) : String :=
  if s.data.length ≥ 3 && decide (s.data.drop (s.data.length - 3) = ['s', 'i', 'g'])
  then ⟨s.data.take (s.data.length - 3)⟩ else s

/-- Lexicographic comparison of code-point sequences; the model of the
comparator result `aKey.localeCompare(bKey) <= 0`. -/
def lexLe : List Char → List Char → Bool
  | [], _ => true
  | _ :: _, [] => false
  | a :: as, b :: bs =>
    if a.toNat < b.toNat then true
    else if b.toNat < a.toNat then false
    else lexLe as bs

def strLe (a b : String) : Bool := lexLe a.data b.data

/-- The sort key used by the comparator inside `sortDecay`: a string is its own
key; an array's key is its first entry when that entry is a string, and the
empty string when the array is empty.  (When a nonempty array's first entry is
not a string the source would throw in `localeCompare`; this point is
unreachable on well-formed trees and the model returns the empty string.) -/
def sortKey : Item → String
  | .str s => s
  | .arr (.cons (.str s) _) => s
  | _ => ""

def keyRel (a b : Item) : Prop := strLe (sortKey a) (sortKey b) = true

instance : DecidableRel keyRel := fun a b => by unfold keyRel; infer_instance

/-- Source: `sortDecay` (decayMatching.js), with explicit fuel.  A non-array or
empty array is returned as is; otherwise the first entry (mother) is kept and
the daughters are stably sorted by `sortKey` and then recursively sorted. -/
def sortDecayF : Nat → Item → Item
  | 0, t => t
  | fuel+1, t =>
    match t with
    | .arr (.cons m ds) =>
        .arr (.cons m (ofList ((List.insertionSort keyRel (toList ds)).map
          (fun d => if isDecay d then sortDecayF fuel d else d))))
    | x => x

def sortDecay (t : Item) : Item := sortDecayF (isize t) t

/-- Source: `normalizeDecay` (decayMatching.js), with explicit fuel: sort, then
map `normalizeDecay` over nested arrays and `normalizeParticleName` over the
other entries (the mother included). -/
def normalizeDecayF : Nat → Item → Item
  | 0, t => t
  | fuel+1, t =>
    match t with
    | .arr l =>
        match sortDecay (.arr l) with
        | .arr l2 => .arr (ofList ((toList l2).map
            (fun item => if isDecay item then normalizeDecayF fuel item
                         else normalizeParticleName item)))
        | x => x
    | x => normalizeParticleName x

def normalizeDecay (t : Item) : Item := normalizeDecayF (isize t) t

/-- The map body inside `sortDecay`: recursively sort nested arrays, keep the
other entries. -/
def sortInner (d : Item) : Item := if isDecay d then sortDecay d else d

/-- The map body inside `normalizeDecay`: recursively normalize nested arrays,
name-normalize the other entries. -/
def normEntry (d : Item) : Item :=
  if isDecay d then normalizeDecay d else normalizeParticleName d

/-- Source: `decaysMatch` (decayMatching.js).  The source compares the
normalized trees via `JSON.stringify`; on values built from strings and arrays
stringification is injective, so this is structural equality.  (The model
conflates `null` and `undefined`, which stringify identically inside arrays;
no theorem evaluates `decaysMatch` off well-formed trees.) -/
def decaysMatch (a b : Item) : Bool := normalizeDecay a == normalizeDecay b

/-- Source: `extractDaughters` (decayMatching.js): `decay.slice(1)` for arrays,
`[]` otherwise. -/
def extractDaughters : Item → List Item
  | .arr (.cons _ ds) => toList ds
  | _ => []

mutual
/-- Source: `getWeight` (decayMatching.js): 1 for a string, and for an array
the sum of the weights of all entries starting from `-1` (the mother, a
string of weight 1, thus cancels; the fold over the array is linearized into
the mutual list function).  On `null`/`undefined` the source would throw;
those points are unreachable on well-formed trees and the model returns 0. -/
def getWeight : Item → Int
  | .str _ => 1
  | .vnull => 0
  | .vundef => 0
  | .arr l => -1 + getWeightL l
def getWeightL : ItemList → Int
  | .nil => 0
  | .cons x xs => getWeight x + getWeightL xs
end

/-- Source: `nodeName` (decayMatching.js): `s.replace(/sig$/, "")` for a
string, `node[0].replace(/sig$/, "")` for an array.  When the first entry of
the array is missing or not a string the source would throw; unreachable on
well-formed trees, the model returns the empty string. -/
def nodeName : Item → String
  | .str s => stripSig s
  | .arr (.cons (.str s) _) => stripSig s
  | _ => ""

/-- `pending.includes(name)` where `pending` holds raw JS values: `===` only
equates a string element with the string `name`; array elements never do. -/
def jsIncludes (pending : List Item) (s : String) : Bool :=
  pending.any (fun x => match x with | .str t => t == s | _ => false)

/-- `pending.splice(pending.indexOf(name), 1)`: remove the first string element
equal to `name` (no change when absent, matching the guarded source calls). -/
def removeFirst (pending : List Item) (s : String) : List Item :=
  match pending with
  | [] => []
  | x :: rest =>
      match x with
      | .str t => if t == s then rest else x :: removeFirst rest s
      | _ => x :: removeFirst rest s

/-- Source: `findMatches` (decayMatching.js), with the mutable
`filterObject.searchDaughters` threaded as an explicit pending list and
explicit fuel.  A string contributes weight 0; at an array node, if the
node's (sig-stripped) name is in pending it is consumed and the node's weight
returned; otherwise if every immediate daughter's name is in pending
(`daughters.every(...includes...)`, a membership test), one occurrence of
each daughter name that is still present is removed and the node's weight
returned; otherwise the daughters are folded over, accumulating weights and
threading the pending list. -/
def findMatchesF : Nat → Item → List Item → Int × List Item
  | 0, _, pending => (0, pending)
  | fuel+1, t, pending =>
    match t with
    | .arr l =>
        let mother := nodeName (.arr l)
        let daughters := (toList l).drop 1
        if jsIncludes pending mother then
          (getWeight (.arr l), removeFirst pending mother)
        else if daughters.all (fun d => jsIncludes pending (nodeName d)) then
          (getWeight (.arr l), daughters.foldl (fun p d => removeFirst p (nodeName d)) pending)
        else
          daughters.foldl
            (fun acc d =>
              let r := findMatchesF fuel d acc.2
              (acc.1 + r.1, r.2))
            (0, pending)
    | _ => (0, pending)

def findMatches (t : Item) (pending : List Item) : Int × List Item :=
  findMatchesF (isize t) t pending

/-- JS truthiness of the values that can reach `decayContains`: `null`,
`undefined` and the empty string are falsy; every array is truthy. -/
def falsy : Item → Bool
  | .vnull => true
  | .vundef => true
  | .str s => s.data.isEmpty
  | .arr _ => false

/-- The mother extraction at the head of `decayContains`:
`normalizeParticleName(decayStructure[0]).replace(/sig$/, "")`.  `none` models
the `TypeError` the source throws when entry 0 is absent or not a string. -/
def motherKey : ItemList → Option String
  | .cons (.str s) _ => some (stripSig (normName s))
  | _ => none

/-- The loop `for (const item of decayStructure.slice(1)) if (Array.isArray(item))
if (decayContains(item, searchDecay)) return true` with exceptions propagated
in evaluation order. -/
def containsListF (rec : Item → Option Bool) : List Item → Option Bool
  | [] => some false
  | x :: rest =>
      match x with
      | .arr l =>
          match rec (.arr l) with
          | none => none
          | some true => some true
          | some false => containsListF rec rest
      | _ => containsListF rec rest

/-- Source: `decayContains` (decayMatching.js), with explicit fuel.  Falsy or
non-array arguments yield `false`; if the normalized, sig-stripped mothers
differ the search recurses into the array entries of `decayStructure.slice(1)`;
otherwise the exact check `decaysMatch` is tried and, failing that, the
weighted sub-match on the whole structure decides: matched weight must equal
`getWeight(decayStructure)` and the pending list must end up empty. -/
def decayContainsF : Nat → Item → Item → Option Bool
  | 0, _, _ => none
  | fuel+1, t, p =>
    if falsy t || falsy p then some false
    else
      match t, p with
      | .arr ts, .arr ps =>
          match motherKey ts, motherKey ps with
          | some sm, some pm =>
              if sm ≠ pm then
                containsListF (fun d => decayContainsF fuel d (.arr ps)) ((toList ts).drop 1)
              else if decaysMatch (.arr ts) (.arr ps) then some true
              else
                let pending := (toList ps).drop 1
                let r := findMatches (.arr ts) pending
                some (r.1 == getWeight (.arr ts) && r.2.isEmpty)
          | _, _ => none
      | _, _ => some false

def decayContains (t p : Item) : Option Bool := decayContainsF (isize t) t p

/-- The effect of `cleaned.replace(/^\[|\]$/g, '')`: one leading `[` (if
present) and one trailing `]` (if present) are removed; the two anchored
alternatives cannot overlap. -/
def stripOuterBrackets (l : List Char) : List Char :=
  let l1 := if l.head? = some '[' then l.tail else l
  if l1.getLast? = some ']' then l1.dropLast else l1

/-- The arrow scan of `parseDecayString`: walk the character list with index
`idx` and parenthesis depth, stopping at the last position that still has a
successor (the loop bound is `i < cleaned.length - 1`), and return the index
of the first `->` at depth 0. -/
def findArrow : List Char → Int → Nat → Option Nat
  | [], _, _ => none
  | [_], _, _ => none
  | c :: next :: rest, depth, idx =>
    if c = '(' then findArrow (next :: rest) (depth + 1) (idx + 1)
    else if c = ')' then findArrow (next :: rest) (depth - 1) (idx + 1)
    else if c = '-' && next = '>' && depth = 0 then some idx
    else findArrow (next :: rest) depth (idx + 1)

/-- The daughter tokenizer loop of `parseDecayString`: scans the remaining
characters, carrying the pending token `current`, the parenthesis depth and
the accumulated daughter list; `pf` is the recursive parser applied to the
interior of a closed parenthesis group.  A `(` at depth 0 first flushes a
pending bare particle; a `)` closing to depth 0 recursively parses the
parenthesized text (falling back to a bare normalized name when that fails);
a space at depth 0 flushes a pending particle; other characters accumulate.
After the loop a pending token is flushed only when the depth returned
to 0. -/
def tokDaughters (pf : String → Option Item) :
    List Char → List Char → Int → List Item → List Item
  | [], current, depth, acc =>
      if !(trimChars current).isEmpty && depth = 0 then
        let p := normName ⟨trimChars current⟩
        if !p.data.isEmpty then acc ++ [.str p] else acc
      else acc
  | '(' :: rest, current, depth, acc =>
      if depth = 0 && !(trimChars current).isEmpty then
        let p := normName ⟨trimChars current⟩
        let acc2 := if !p.data.isEmpty then acc ++ [.str p] else acc
        tokDaughters pf rest ['('] (depth + 1) acc2
      else
        tokDaughters pf rest (current ++ ['(']) (depth + 1) acc
  | ')' :: rest, current, depth, acc =>
      let current2 := current ++ [')']
      if depth - 1 = 0 then
        let sub : List Char := (current2.drop 1).dropLast
        let acc2 :=
          match pf ⟨sub⟩ with
          | some d => acc ++ [d]
          | none =>
              let p := normName ⟨trimChars sub⟩
              if !p.data.isEmpty then acc ++ [.str p] else acc
        tokDaughters pf rest [] (depth - 1) acc2
      else
        tokDaughters pf rest current2 (depth - 1) acc
  | ' ' :: rest, current, depth, acc =>
      if depth = 0 then
        if !(trimChars current).isEmpty then
          let p := normName ⟨trimChars current⟩
          let acc2 := if !p.data.isEmpty then acc ++ [.str p] else acc
          tokDaughters pf rest [] depth acc2
        else
          tokDaughters pf rest current depth acc
      else
        tokDaughters pf rest (current ++ [' ']) depth acc
  | c :: rest, current, depth, acc =>
      tokDaughters pf rest (current ++ [c]) depth acc

/-- Source: `parseDecayString` (App.jsx), with fuel bounding the recursion
depth (each recursive call receives a strictly shorter string, so the
wrapper's fuel `length + 1` never runs out).  Strips `[...]cc` markers and
trims, rejects an empty result, strips one pair of outer square brackets,
finds the first `->` at parenthesis depth 0 (failure: no tree), extracts the
normalized mother and the daughter substring (failure when either is empty),
tokenizes the daughters, requires at least one daughter, and returns
`sortDecay([mother, ...daughters])`. -/
def parseF : Nat → String → Option Item
  | 0, _ => none
  | fuel+1, s =>
    if s.data.isEmpty then none
    else
      let cleaned1 := trimChars (stripCC s.data)
      if cleaned1.isEmpty then none
      else
        let cleaned := stripOuterBrackets cleaned1
        match findArrow cleaned 0 0 with
        | none => none
        | some i =>
            let mother := normName ⟨trimChars (cleaned.take i)⟩
            let daughtersStr := trimChars (cleaned.drop (i + 2))
            if mother.data.isEmpty || daughtersStr.isEmpty then none
            else
              let daughters := tokDaughters (parseF fuel) daughtersStr [] 0 []
              if daughters.isEmpty then none
              else some (sortDecay (.arr (.cons (.str mother) (ofList daughters))))

def parseDecayString (s : String) : Option Item := parseF (s.length + 1) s

mutual
/-- A well-formed decay tree in the sense of the spec's data model: a leaf is
a string; a decay node is an array whose first entry is a string mother and
whose remaining entries form a non-empty list of well-formed trees. -/
def wf : Item → Bool
  | .str _ => true
  | .arr (.cons (.str _) (.cons d ds)) => wf d && wfL ds
  | _ => false
def wfL : ItemList → Bool
  | .nil => true
  | .cons x xs => wf x && wfL xs
end

mutual
/-- Reference weight, modelled on the words of the spec (data model, Weight):
the weight of a leaf is 1 and the weight of a decay node is the sum of the
weights of its daughters, the mother contributing nothing. -/
def specWeight : Item → Int
  | .str _ => 1
  | .arr (.cons _ ds) => specWeightL ds
  | _ => 0
def specWeightL : ItemList → Int
  | .nil => 0
  | .cons x xs => specWeight x + specWeightL xs
end

mutual
/-- Every name in the tree is a fixed point of normalization (carries no
`[...]cc` marker and no surrounding whitespace). -/
def namesNormed : Item → Bool
  | .str s => normName s == s
  | .arr l => namesNormedL l
  | _ => false
def namesNormedL : ItemList → Bool
  | .nil => true
  | .cons x xs => namesNormed x && namesNormedL xs
end

mutual
/-- At every level of the tree, no two daughters share a sort key. -/
def distinctKeys : Item → Bool
  | .str _ => true
  | .vnull => true
  | .vundef => true
  | .arr .nil => true
  | .arr (.cons _ ds) => decide (((toList ds).map sortKey).Nodup) && distinctKeysL ds
def distinctKeysL : ItemList → Bool
  | .nil => true
  | .cons x xs => distinctKeys x && distinctKeysL xs
end

/-- `PermTree t u` relates two trees that differ only by reorderings of
daughter lists, at any level: daughters are first rewritten pointwise by
`PermTree` and the resulting list is then permuted; the mother entry is kept
in place. -/
inductive PermTree : Item → Item → Prop where
  | vnull : PermTree .vnull .vnull
  | vundef : PermTree .vundef .vundef
  | leaf (s : String) : PermTree (.str s) (.str s)
  | anil : PermTree (.arr .nil) (.arr .nil)
  | node (m : Item) (ds mid ds2 : List Item) :
      List.Forall₂ PermTree ds mid → mid.Perm ds2 →
      PermTree (.arr (.cons m (ofList ds))) (.arr (.cons m (ofList ds2)))

/-- Strict version of the string order underlying `keyRel`. -/
def strLt (a b : String) : Prop := strLe a b = true ∧ a ≠ b

/-!
Heap-level model for the frame claims about `sortDecay` and `normalizeDecay`.
JS arrays are mutable reference cells; to state that the source functions do
not mutate their argument we re-express them over an explicit heap: a `Heap`
is the list of array cells allocated so far, cell `r` holding the element
list of the JS array referenced by `.href r`, and every array created by the
source (`[...daughters]`, the results of `.map`, `[mother, ...rest]`) appends
a fresh cell.  `sortDecayHF` and `normalizeDecayHF` mirror `sortDecay` and
`normalizeDecay` over this heap; the sort key of a reference reads the cell's
first entry through the heap.
-/

inductive HVal where
  | hnull : HVal
  | hundef : HVal
  | hstr : String → HVal
  | href : Nat → HVal
deriving DecidableEq

abbrev Heap := List (List HVal)

def isArrH : HVal → Bool
  | .href _ => true
  | _ => false

/-- `normalizeParticleName` on a heap value: only strings are rewritten. -/
def normHVal : HVal → HVal
  | .hstr s => .hstr (normName s)
  | x => x

def sortKeyH (h : Heap) : HVal → String
  | .hstr s => s
  | .href r =>
      match h[r]? with
      | some (.hstr s :: _) => s
      | _ => ""
  | _ => ""

def keyRelH (h : Heap) (a b : HVal) : Prop :=
  strLe (sortKeyH h a) (sortKeyH h b) = true

instance (h : Heap) : DecidableRel (keyRelH h) := fun a b => by
  unfold keyRelH; infer_instance

/-- The recursive `.map` step of `sortDecayH`: thread the heap left to right,
rewriting array entries with `f` and keeping the rest. -/
def mapSortH (f : Heap → HVal → Heap × HVal) : Heap → List HVal → Heap × List HVal
  | h, [] => (h, [])
  | h, v :: rest =>
      let p := if isArrH v then f h v else (h, v)
      let q := mapSortH f p.1 rest
      (q.1, p.2 :: q.2)

/-- Heap-level `sortDecay`: a non-reference, a dangling reference, or a
reference to an empty cell is returned unchanged (the source returns its
argument without copying); otherwise the daughters of the cell are stably
sorted by key, recursively rewritten, and a fresh cell `[mother, ...sorted]`
is appended. -/
def sortDecayHF : Nat → Heap → HVal → Heap × HVal
  | 0, h, v => (h, v)
  | fuel+1, h, v =>
      match v with
      | .href r =>
          match h[r]? with
          | some (m :: ds) =>
              let sorted := List.insertionSort (keyRelH h) ds
              let p := mapSortH (sortDecayHF fuel) h sorted
              (p.1 ++ [m :: p.2], .href p.1.length)
          | _ => (h, v)
      | _ => (h, v)

def sortDecayH (h : Heap) (v : HVal) : Heap × HVal := sortDecayHF (h.length + 1) h v

/-- The `.map` step of `normalizeDecayH`: array entries are recursively
normalized, other entries get `normalizeParticleName`. -/
def mapNormH (f : Heap → HVal → Heap × HVal) : Heap → List HVal → Heap × List HVal
  | h, [] => (h, [])
  | h, v :: rest =>
      let p := if isArrH v then f h v else (h, normHVal v)
      let q := mapNormH f p.1 rest
      (q.1, p.2 :: q.2)

/-- Heap-level `normalizeDecay`: a non-reference is name-normalized in place
(no allocation); a reference is first sorted (allocating, for non-empty
cells, one fresh cell), and the result of `.map` over the sorted cell is a
further fresh cell. -/
def normalizeDecayHF : Nat → Heap → HVal → Heap × HVal
  | 0, h, v => (h, v)
  | fuel+1, h, v =>
      match v with
      | .href r =>
          match sortDecayH h (.href r) with
          | (h1, .href r2) =>
              let items := h1.getD r2 []
              let p := mapNormH (normalizeDecayHF fuel) h1 items
              (p.1 ++ [p.2], .href p.1.length)
          | (h1, x) => (h1, x)
      | _ => (h, normHVal v)

def normalizeDecayH (h : Heap) (v : HVal) : Heap × HVal :=
  normalizeDecayHF (h.length + 1) h v

/-- The cleaned character list `parseDecayString` scans for the top-level
arrow: `[...]cc` markers stripped, trimmed, one pair of outer square brackets
removed. -/
def cleanedOf (s : String) : List Char := stripOuterBrackets (trimChars (stripCC s.data))

/-! Basic lemmas about the list encoding and sizes. -/

theorem toList_ofList : ∀ l : List Item, toList (ofList l) = l
  | [] => rfl
  | x :: xs => by simp [ofList, toList, toList_ofList xs]

theorem ofList_toList : ∀ l : ItemList, ofList (toList l) = l
  | .nil => rfl
  | .cons x xs => by simp [ofList, toList, ofList_toList xs]

theorem isize_pos : ∀ t : Item, 1 ≤ isize t := by
  intro t
  cases t <;> simp [isize]

theorem isizeL_eq_sum : ∀ l : ItemList, isizeL l = ((toList l).map isize).sum
  | .nil => rfl
  | .cons x xs => by simp [isizeL, toList, isizeL_eq_sum xs]

theorem isize_le_of_mem {d : Item} : ∀ {l : ItemList}, d ∈ toList l → isize d ≤ isizeL l
  | .nil, h => by simp [toList] at h
  | .cons x xs, h => by
      simp only [toList, List.mem_cons] at h
      rcases h with h | h
      · subst h; simp [isizeL]
      · have := isize_le_of_mem (l := xs) h
        have h2 : 0 ≤ isize x := Nat.zero_le _
        simp only [isizeL]
        omega

theorem isizeL_ofList : ∀ l : List Item, isizeL (ofList l) = (l.map isize).sum
  | [] => rfl
  | x :: xs => by simp [ofList, isizeL, isizeL_ofList xs]

/-! The comparator order: totality, transitivity, antisymmetry. -/

theorem lexLe_total : ∀ a b : List Char, lexLe a b = true ∨ lexLe b a = true
  | [], _ => Or.inl rfl
  | _ :: _, [] => Or.inr rfl
  | a :: as, b :: bs => by
      rcases Nat.lt_trichotomy a.toNat b.toNat with h | h | h
      · left; simp [lexLe, h]
      · have h1 : ¬ a.toNat < b.toNat := by omega
        have h2 : ¬ b.toNat < a.toNat := by omega
        rcases lexLe_total as bs with ih | ih
        · left; simp [lexLe, h1, h2, ih]
        · right; simp [lexLe, h1, h2, ih]
      · right; simp [lexLe, h]

theorem lexLe_cons_iff {a b : Char} {as bs : List Char} :
    lexLe (a :: as) (b :: bs) = true ↔
      a.toNat < b.toNat ∨ (a.toNat = b.toNat ∧ lexLe as bs = true) := by
  by_cases h1 : a.toNat < b.toNat
  · simp [lexLe, h1]
  · by_cases h2 : b.toNat < a.toNat
    · simp [lexLe, h1, h2]; omega
    · have h3 : a.toNat = b.toNat := by omega
      simp [lexLe, h1, h2, h3]

theorem lexLe_trans : ∀ a b c : List Char,
    lexLe a b = true → lexLe b c = true → lexLe a c = true
  | [], _, _, _, _ => rfl
  | _ :: _, [], _, h, _ => by simp [lexLe] at h
  | _ :: _, _ :: _, [], _, h => by simp [lexLe] at h
  | a :: as, b :: bs, c :: cs, h1, h2 => by
      rw [lexLe_cons_iff] at h1 h2 ⊢
      rcases h1 with h1 | ⟨h1e, h1r⟩ <;> rcases h2 with h2 | ⟨h2e, h2r⟩
      · left; omega
      · left; omega
      · left; omega
      · right
        exact ⟨by omega, lexLe_trans as bs cs h1r h2r⟩

theorem char_eq_of_toNat_eq {a b : Char} (h : a.toNat = b.toNat) : a = b :=
  Char.eq_of_val_eq (UInt32.eq_of_toBitVec_eq (BitVec.eq_of_toNat_eq h))

theorem lexLe_antisymm : ∀ a b : List Char,
    lexLe a b = true → lexLe b a = true → a = b
  | [], [], _, _ => rfl
  | [], _ :: _, _, h => by simp [lexLe] at h
  | _ :: _, [], h, _ => by simp [lexLe] at h
  | a :: as, b :: bs, h1, h2 => by
      rw [lexLe_cons_iff] at h1 h2
      rcases h1 with h1 | ⟨h1e, h1r⟩ <;> rcases h2 with h2 | ⟨h2e, h2r⟩
      · omega
      · omega
      · omega
      · rw [char_eq_of_toNat_eq h1e, lexLe_antisymm as bs h1r h2r]

theorem strLe_total (a b : String) : strLe a b = true ∨ strLe b a = true :=
  lexLe_total a.data b.data

theorem strLe_trans {a b c : String} (h1 : strLe a b = true) (h2 : strLe b c = true) :
    strLe a c = true :=
  lexLe_trans a.data b.data c.data h1 h2

theorem strLe_antisymm {a b : String} (h1 : strLe a b = true) (h2 : strLe b a = true) :
    a = b := by
  cases a with
  | mk da =>
    cases b with
    | mk db => exact congrArg String.mk (lexLe_antisymm da db h1 h2)

instance : IsTotal Item keyRel :=
  ⟨fun a b => strLe_total (sortKey a) (sortKey b)⟩

instance : IsTrans Item keyRel :=
  ⟨fun _ _ _ h1 h2 => strLe_trans h1 h2⟩

instance : IsAntisymm String strLt :=
  ⟨fun a b h1 h2 => absurd (strLe_antisymm h1.1 h2.1) h1.2⟩

/-! Structure lemmas for `sortDecay`. -/

theorem sortKey_sortDecayF : ∀ (fuel : Nat) (t : Item), sortKey (sortDecayF fuel t) = sortKey t
  | 0, _ => rfl
  | _+1, .vnull => rfl
  | _+1, .vundef => rfl
  | _+1, .str _ => rfl
  | _+1, .arr .nil => rfl
  | _+1, .arr (.cons m _) => by cases m <;> rfl

theorem sortKey_sortDecay (t : Item) : sortKey (sortDecay t) = sortKey t :=
  sortKey_sortDecayF _ t

theorem sortKey_sortInner (d : Item) : sortKey (sortInner d) = sortKey d := by
  unfold sortInner
  by_cases h : isDecay d = true <;> simp [h, sortKey_sortDecay]

theorem isize_sortDecayF : ∀ (fuel : Nat) (t : Item), isize t ≤ fuel →
    isize (sortDecayF fuel t) = isize t
  | 0, _, _ => rfl
  | _+1, .vnull, _ => rfl
  | _+1, .vundef, _ => rfl
  | _+1, .str _, _ => rfl
  | _+1, .arr .nil, _ => rfl
  | fuel+1, .arr (.cons m ds), h => by
      have hds : isizeL ds ≤ fuel := by
        simp only [isize, isizeL] at h
        have := isize_pos m
        omega
      simp only [sortDecayF, isize, isizeL, isizeL_ofList]
      rw [List.map_map]
      have hpt : ∀ d ∈ List.insertionSort keyRel (toList ds),
          (isize ∘ fun d => if isDecay d then sortDecayF fuel d else d) d = isize d := by
        intro d hd
        have hmem : d ∈ toList ds := ((List.perm_insertionSort keyRel (toList ds)).mem_iff).mp hd
        have hle : isize d ≤ fuel := le_trans (isize_le_of_mem hmem) hds
        by_cases hc : isDecay d = true <;>
          simp [Function.comp, hc, isize_sortDecayF fuel d hle]
      rw [List.map_congr_left hpt]
      have hsum := ((List.perm_insertionSort keyRel (toList ds)).map isize).sum_eq
      rw [hsum, ← isizeL_eq_sum]

theorem isize_sortDecay (t : Item) : isize (sortDecay t) = isize t :=
  isize_sortDecayF _ t le_rfl

theorem sortDecayF_congr : ∀ (f1 f2 : Nat) (t : Item), isize t ≤ f1 → isize t ≤ f2 →
    sortDecayF f1 t = sortDecayF f2 t
  | 0, _, t, h1, _ => absurd (le_trans (isize_pos t) h1) (by omega)
  | _+1, 0, t, _, h2 => absurd (le_trans (isize_pos t) h2) (by omega)
  | _+1, _+1, .vnull, _, _ => rfl
  | _+1, _+1, .vundef, _, _ => rfl
  | _+1, _+1, .str _, _, _ => rfl
  | _+1, _+1, .arr .nil, _, _ => rfl
  | f1+1, f2+1, .arr (.cons m ds), h1, h2 => by
      have hds1 : isizeL ds ≤ f1 := by
        simp only [isize, isizeL] at h1; have := isize_pos m; omega
      have hds2 : isizeL ds ≤ f2 := by
        simp only [isize, isizeL] at h2; have := isize_pos m; omega
      simp only [sortDecayF]
      have hpt : ∀ d ∈ List.insertionSort keyRel (toList ds),
          (if isDecay d then sortDecayF f1 d else d)
            = (if isDecay d then sortDecayF f2 d else d) := by
        intro d hd
        have hmem : d ∈ toList ds := ((List.perm_insertionSort keyRel (toList ds)).mem_iff).mp hd
        have hle1 : isize d ≤ f1 := le_trans (isize_le_of_mem hmem) hds1
        have hle2 : isize d ≤ f2 := le_trans (isize_le_of_mem hmem) hds2
        by_cases hc : isDecay d = true <;>
          simp [hc, sortDecayF_congr f1 f2 d hle1 hle2]
      rw [List.map_congr_left hpt]

theorem sortDecay_node (m : Item) (ds : ItemList) :
    sortDecay (.arr (.cons m ds)) =
      .arr (.cons m (ofList ((List.insertionSort keyRel (toList ds)).map sortInner))) := by
  have h1 : isize (.arr (.cons m ds)) = (isize m + isizeL ds) + 1 := by
    simp [isize, isizeL]
  unfold sortDecay
  rw [h1]
  simp only [sortDecayF]
  have hpt : ∀ d ∈ List.insertionSort keyRel (toList ds),
      (if isDecay d then sortDecayF (isize m + isizeL ds) d else d) = sortInner d := by
    intro d hd
    have hmem : d ∈ toList ds := ((List.perm_insertionSort keyRel (toList ds)).mem_iff).mp hd
    have hle : isize d ≤ isize m + isizeL ds :=
      le_trans (isize_le_of_mem hmem) (by omega)
    unfold sortInner
    by_cases hc : isDecay d = true <;>
      simp [hc, sortDecay, sortDecayF_congr (isize m + isizeL ds) (isize d) d hle le_rfl]
  rw [List.map_congr_left hpt]

theorem sortDecay_not_arr (t : Item) (h : isDecay t = false) : sortDecay t = t := by
  cases t <;> simp_all [isDecay, sortDecay, sortDecayF, isize]

theorem sortDecay_anil : sortDecay (.arr .nil) = .arr .nil := rfl

theorem isDecay_sortDecay (d : Item) : isDecay (sortDecay d) = isDecay d := by
  cases d with
  | vnull => rfl
  | vundef => rfl
  | str _ => rfl
  | arr l =>
      cases l with
      | nil => rfl
      | cons m ds => rw [sortDecay_node m ds]; rfl

/-- A sorted daughter list stays sorted after a key-preserving map. -/
theorem sorted_map_of_keys {f : Item → Item} {l : List Item}
    (hf : ∀ d ∈ l, sortKey (f d) = sortKey d) (h : l.Sorted keyRel) :
    (l.map f).Sorted keyRel := by
  rw [List.Sorted, List.pairwise_map]
  refine h.imp_of_mem ?_
  intro a b ha hb hab
  unfold keyRel at hab ⊢
  rw [hf a ha, hf b hb]
  exact hab

theorem sortDecay_idem_aux : ∀ (n : Nat) (t : Item), isize t ≤ n →
    sortDecay (sortDecay t) = sortDecay t
  | 0, t, h => absurd (le_trans (isize_pos t) h) (by omega)
  | _+1, .vnull, _ => rfl
  | _+1, .vundef, _ => rfl
  | _+1, .str _, _ => rfl
  | _+1, .arr .nil, _ => rfl
  | n+1, .arr (.cons m ds), h => by
      have hds : isizeL ds ≤ n := by
        simp only [isize, isizeL] at h; have := isize_pos m; omega
      rw [sortDecay_node m ds]
      rw [sortDecay_node m (ofList ((List.insertionSort keyRel (toList ds)).map sortInner))]
      rw [toList_ofList]
      have hsorted : ((List.insertionSort keyRel (toList ds)).map sortInner).Sorted keyRel :=
        sorted_map_of_keys (fun d _ => sortKey_sortInner d)
          (List.sorted_insertionSort keyRel (toList ds))
      rw [hsorted.insertionSort_eq]
      rw [List.map_map]
      have hpt : ∀ d ∈ List.insertionSort keyRel (toList ds),
          (sortInner ∘ sortInner) d = sortInner d := by
        intro d hd
        have hmem : d ∈ toList ds := ((List.perm_insertionSort keyRel (toList ds)).mem_iff).mp hd
        have hle : isize d ≤ n := le_trans (isize_le_of_mem hmem) hds
        by_cases hc : isDecay d = true
        · have harr : isDecay (sortDecay d) = true := by
            rw [isDecay_sortDecay]; exact hc
          simp only [Function.comp, sortInner, hc, if_true, harr]
          exact sortDecay_idem_aux n d hle
        · simp [Function.comp, sortInner, hc]
      rw [List.map_congr_left hpt]

theorem sortDecay_idem (t : Item) : sortDecay (sortDecay t) = sortDecay t :=
  sortDecay_idem_aux (isize t) t le_rfl

/-! Structure lemmas for `normalizeDecay`. -/

theorem sortDecay_arr_shape (l : ItemList) :
    ∃ l2, sortDecay (.arr l) = .arr l2 ∧ isizeL l2 = isizeL l := by
  cases l with
  | nil => exact ⟨.nil, rfl, rfl⟩
  | cons m ds =>
      refine ⟨_, sortDecay_node m ds, ?_⟩
      have h := isize_sortDecay (.arr (.cons m ds))
      rw [sortDecay_node m ds] at h
      simp only [isize] at h
      omega

theorem normalizeDecayF_congr : ∀ (f1 f2 : Nat) (t : Item), isize t ≤ f1 → isize t ≤ f2 →
    normalizeDecayF f1 t = normalizeDecayF f2 t
  | 0, _, t, h1, _ => absurd (le_trans (isize_pos t) h1) (by omega)
  | _+1, 0, t, _, h2 => absurd (le_trans (isize_pos t) h2) (by omega)
  | _+1, _+1, .vnull, _, _ => rfl
  | _+1, _+1, .vundef, _, _ => rfl
  | _+1, _+1, .str _, _, _ => rfl
  | f1+1, f2+1, .arr l, h1, h2 => by
      obtain ⟨l2, hs, hsz⟩ := sortDecay_arr_shape l
      have hb1 : isizeL l ≤ f1 := by simp only [isize] at h1; omega
      have hb2 : isizeL l ≤ f2 := by simp only [isize] at h2; omega
      simp only [normalizeDecayF, hs]
      have hpt : ∀ d ∈ toList l2,
          (if isDecay d then normalizeDecayF f1 d else normalizeParticleName d)
            = (if isDecay d then normalizeDecayF f2 d else normalizeParticleName d) := by
        intro d hd
        have hle : isize d ≤ isizeL l := hsz ▸ isize_le_of_mem hd
        by_cases hc : isDecay d = true <;>
          simp [hc, normalizeDecayF_congr f1 f2 d (le_trans hle hb1) (le_trans hle hb2)]
      rw [List.map_congr_left hpt]

theorem normalizeDecay_arr (l l2 : ItemList) (hs : sortDecay (.arr l) = .arr l2) :
    normalizeDecay (.arr l) = .arr (ofList ((toList l2).map normEntry)) := by
  have hsz : isizeL l2 = isizeL l := by
    obtain ⟨l2b, hsb, hszb⟩ := sortDecay_arr_shape l
    rw [hsb] at hs
    cases (Item.arr.inj hs)
    exact hszb
  unfold normalizeDecay
  have h1 : isize (.arr l) = isizeL l + 1 := by simp [isize]
  rw [h1]
  simp only [normalizeDecayF, hs]
  have hpt : ∀ d ∈ toList l2,
      (if isDecay d then normalizeDecayF (isizeL l) d else normalizeParticleName d)
        = normEntry d := by
    intro d hd
    have hle : isize d ≤ isizeL l := hsz ▸ isize_le_of_mem hd
    unfold normEntry
    by_cases hc : isDecay d = true <;>
      simp [hc, normalizeDecay, normalizeDecayF_congr (isizeL l) (isize d) d hle le_rfl]
  rw [List.map_congr_left hpt]

theorem normalizeDecay_sortDecay (d : Item) : normalizeDecay (sortDecay d) = normalizeDecay d := by
  cases d with
  | vnull => rfl
  | vundef => rfl
  | str _ => rfl
  | arr l =>
      obtain ⟨l2, hs, _⟩ := sortDecay_arr_shape l
      have hidem : sortDecay (.arr l2) = .arr l2 := by
        have := sortDecay_idem (.arr l)
        rw [hs] at this
        exact this
      rw [hs, normalizeDecay_arr l2 l2 hidem, normalizeDecay_arr l l2 hs]

theorem normEntry_sortInner (d : Item) : normEntry (sortInner d) = normEntry d := by
  by_cases hc : isDecay d = true
  · simp only [sortInner, hc, if_true, normEntry, isDecay_sortDecay, normalizeDecay_sortDecay]
  · simp [sortInner, hc]

theorem normalizeDecay_node (m : Item) (ds : ItemList) :
    normalizeDecay (.arr (.cons m ds)) =
      .arr (.cons (normEntry m)
        (ofList ((List.insertionSort keyRel (toList ds)).map normEntry))) := by
  rw [normalizeDecay_arr (.cons m ds) _ (sortDecay_node m ds)]
  simp only [toList, toList_ofList, List.map_cons, List.map_map, ofList]
  have heq : List.map (normEntry ∘ sortInner) (List.insertionSort keyRel (toList ds))
      = List.map normEntry (List.insertionSort keyRel (toList ds)) :=
    List.map_congr_left (fun d _ => by
      simp only [Function.comp_apply]
      exact normEntry_sortInner d)
  rw [heq]

theorem normalizeDecay_not_arr (t : Item) (h : isDecay t = false) :
    normalizeDecay t = normalizeParticleName t := by
  cases t <;> simp_all [isDecay, normalizeDecay, normalizeDecayF, isize, normalizeParticleName]

/-! Inversion lemmas for the tree predicates. -/

theorem wfL_mem : ∀ {l : ItemList}, wfL l = true → ∀ {x : Item}, x ∈ toList l → wf x = true
  | .nil, _, _, hx => by simp [toList] at hx
  | .cons d rest, h, x, hx => by
      simp only [wfL, Bool.and_eq_true] at h
      simp only [toList, List.mem_cons] at hx
      rcases hx with hx | hx
      · subst hx; exact h.1
      · exact wfL_mem h.2 hx

theorem wf_node_inv {m : Item} {ds : ItemList} (h : wf (.arr (.cons m ds)) = true) :
    (∃ s, m = .str s) ∧ ds ≠ ItemList.nil ∧ ∀ d ∈ toList ds, wf d = true := by
  cases m with
  | vnull => simp [wf] at h
  | vundef => simp [wf] at h
  | arr _ => simp [wf] at h
  | str s =>
      cases ds with
      | nil => simp [wf] at h
      | cons d rest =>
          simp only [wf, Bool.and_eq_true] at h
          refine ⟨⟨s, rfl⟩, ?_, ?_⟩
          · intro hh; exact ItemList.noConfusion hh
          · intro x hx
            simp only [toList, List.mem_cons] at hx
            rcases hx with hx | hx
            · subst hx; exact h.1
            · exact wfL_mem h.2 hx

theorem namesNormedL_mem : ∀ {l : ItemList}, namesNormedL l = true →
    ∀ {x : Item}, x ∈ toList l → namesNormed x = true
  | .nil, _, _, hx => by simp [toList] at hx
  | .cons d rest, h, x, hx => by
      simp only [namesNormedL, Bool.and_eq_true] at h
      simp only [toList, List.mem_cons] at hx
      rcases hx with hx | hx
      · subst hx; exact h.1
      · exact namesNormedL_mem h.2 hx

theorem namesNormed_node_inv {m : Item} {ds : ItemList}
    (h : namesNormed (.arr (.cons m ds)) = true) :
    namesNormed m = true ∧ ∀ d ∈ toList ds, namesNormed d = true := by
  simp only [namesNormed, namesNormedL, Bool.and_eq_true] at h
  exact ⟨h.1, fun d hd => namesNormedL_mem h.2 hd⟩

theorem normalizeDecay_str (s : String) : normalizeDecay (.str s) = .str (normName s) := rfl

theorem isDecay_normalizeDecay (l : ItemList) : isDecay (normalizeDecay (.arr l)) = true := by
  obtain ⟨l2, hs, _⟩ := sortDecay_arr_shape l
  rw [normalizeDecay_arr l l2 hs]
  rfl

theorem normEntry_str (s : String) : normEntry (.str s) = .str (normName s) := rfl

/-- On a tree with already-normalized names the map body of `normalizeDecay`
preserves the sort key. -/
theorem sortKey_normEntry (d : Item) (hn : namesNormed d = true) :
    sortKey (normEntry d) = sortKey d := by
  cases d with
  | vnull => simp [namesNormed] at hn
  | vundef => simp [namesNormed] at hn
  | str s =>
      have hns : normName s = s := by simpa [namesNormed] using hn
      simp [normEntry_str, hns, sortKey]
  | arr l =>
      cases l with
      | nil =>
          have hs : sortDecay (.arr ItemList.nil) = .arr ItemList.nil := sortDecay_anil
          simp [normEntry, isDecay, normalizeDecay_arr ItemList.nil ItemList.nil hs, toList,
            ofList, sortKey]
      | cons m ds =>
          have hmn : namesNormed m = true := (namesNormed_node_inv hn).1
          simp only [normEntry, isDecay, if_true]
          rw [normalizeDecay_node m ds]
          cases m with
          | str s =>
              have hns : normName s = s := by simpa [namesNormed] using hmn
              simp [normEntry_str, hns, sortKey]
          | vnull => simp [namesNormed] at hmn
          | vundef => simp [namesNormed] at hmn
          | arr l2 =>
              have := isDecay_normalizeDecay l2
              simp only [normEntry, isDecay, if_true]
              cases hND : normalizeDecay (.arr l2) with
              | arr _ => simp [sortKey]
              | vnull => rw [hND] at this; simp [isDecay] at this
              | vundef => rw [hND] at this; simp [isDecay] at this
              | str _ => rw [hND] at this; simp [isDecay] at this

/-- Canonicalization is idempotent on well-formed trees whose names are
already normalized. -/
theorem canonIdem_aux : ∀ (n : Nat) (t : Item), isize t ≤ n → wf t = true →
    namesNormed t = true → normalizeDecay (normalizeDecay t) = normalizeDecay t
  | 0, t, h, _, _ => absurd (le_trans (isize_pos t) h) (by omega)
  | _+1, .vnull, _, hw, _ => by simp [wf] at hw
  | _+1, .vundef, _, hw, _ => by simp [wf] at hw
  | _+1, .str s, _, _, hn => by
      have hns : normName s = s := by simpa [namesNormed] using hn
      simp [normalizeDecay_str, hns]
  | _+1, .arr .nil, _, hw, _ => by simp [wf] at hw
  | n+1, .arr (.cons m ds), h, hw, hn => by
      obtain ⟨⟨s, rfl⟩, _, hdwf⟩ := wf_node_inv hw
      obtain ⟨hnm, hnds⟩ := namesNormed_node_inv hn
      have hns : normName s = s := by simpa [namesNormed] using hnm
      have hds_le : isizeL ds ≤ n := by
        simp only [isize, isizeL] at h
        omega
      have hes : normEntry (.str s) = .str s := by rw [normEntry_str, hns]
      rw [normalizeDecay_node (.str s) ds, hes]
      rw [normalizeDecay_node (.str s)
            (ofList ((List.insertionSort keyRel (toList ds)).map normEntry)), hes,
          toList_ofList]
      have hmemLs : ∀ d ∈ List.insertionSort keyRel (toList ds), d ∈ toList ds := fun d hd =>
        ((List.perm_insertionSort keyRel (toList ds)).mem_iff).mp hd
      have hkeys : ∀ d ∈ List.insertionSort keyRel (toList ds),
          sortKey (normEntry d) = sortKey d := fun d hd =>
        sortKey_normEntry d (hnds d (hmemLs d hd))
      have hsorted : ((List.insertionSort keyRel (toList ds)).map normEntry).Sorted keyRel :=
        sorted_map_of_keys hkeys (List.sorted_insertionSort keyRel (toList ds))
      rw [hsorted.insertionSort_eq, List.map_map]
      have hpt : ∀ d ∈ List.insertionSort keyRel (toList ds),
          (normEntry ∘ normEntry) d = normEntry d := by
        intro d hd
        have hdmem : d ∈ toList ds := hmemLs d hd
        have hwfd : wf d = true := hdwf d hdmem
        have hnnd : namesNormed d = true := hnds d hdmem
        have hled : isize d ≤ n := le_trans (isize_le_of_mem hdmem) hds_le
        simp only [Function.comp_apply]
        cases d with
        | vnull => simp [wf] at hwfd
        | vundef => simp [wf] at hwfd
        | str s2 =>
            have hns2 : normName s2 = s2 := by simpa [namesNormed] using hnnd
            simp [normEntry_str, hns2]
        | arr l2 =>
            have hshape := isDecay_normalizeDecay l2
            have h1 : normEntry (.arr l2) = normalizeDecay (.arr l2) := by
              simp [normEntry, isDecay]
            rw [h1]
            have h2 : normEntry (normalizeDecay (.arr l2)) =
                normalizeDecay (normalizeDecay (.arr l2)) := by
              simp only [normEntry, hshape, if_true]
            rw [h2, canonIdem_aux n (.arr l2) hled hwfd hnnd]
      rw [List.map_congr_left hpt]

theorem canonical_idem (t : Item) (hw : wf t = true) (hn : namesNormed t = true) :
    normalizeDecay (normalizeDecay t) = normalizeDecay t :=
  canonIdem_aux (isize t) t le_rfl hw hn

/-! Machinery for order invariance of canonicalization (distinct sort keys). -/

theorem distinctKeysL_mem : ∀ {l : ItemList}, distinctKeysL l = true →
    ∀ {x : Item}, x ∈ toList l → distinctKeys x = true
  | .nil, _, _, hx => by simp [toList] at hx
  | .cons d rest, h, x, hx => by
      simp only [distinctKeysL, Bool.and_eq_true] at h
      simp only [toList, List.mem_cons] at hx
      rcases hx with hx | hx
      · subst hx; exact h.1
      · exact distinctKeysL_mem h.2 hx

theorem distinctKeys_node_inv {m : Item} {ds : ItemList}
    (h : distinctKeys (.arr (.cons m ds)) = true) :
    ((toList ds).map sortKey).Nodup ∧ ∀ d ∈ toList ds, distinctKeys d = true := by
  simp only [distinctKeys, Bool.and_eq_true, decide_eq_true_eq] at h
  exact ⟨h.1, fun d hd => distinctKeysL_mem h.2 hd⟩

theorem permTree_sortKey {a b : Item} (h : PermTree a b) : sortKey a = sortKey b := by
  cases h with
  | vnull => rfl
  | vundef => rfl
  | leaf s => rfl
  | anil => rfl
  | node m ds mid ds2 _ _ => cases m <;> rfl

theorem forall2_map_sortKey :
    ∀ {ds mid : List Item}, List.Forall₂ PermTree ds mid →
      ds.map sortKey = mid.map sortKey := by
  intro ds mid h
  induction h with
  | nil => rfl
  | cons hR _ ih => simp only [List.map_cons, ih, List.cons.injEq, and_true]
                    exact permTree_sortKey hR

theorem forall2_mem_right {R : Item → Item → Prop} :
    ∀ {ds mid : List Item}, List.Forall₂ R ds mid → ∀ {b : Item}, b ∈ mid →
      ∃ a ∈ ds, R a b := by
  intro ds mid h
  induction h with
  | nil => intro b hb; simp at hb
  | cons hR _ ih =>
      intro b hb
      rcases List.mem_cons.mp hb with hb | hb
      · subst hb; exact ⟨_, List.mem_cons_self _ _, hR⟩
      · obtain ⟨a, ha, hra⟩ := ih hb
        exact ⟨a, List.mem_cons_of_mem _ ha, hra⟩

theorem normEntry_congr_of_permTree {a b : Item} (hp : PermTree a b)
    (hnd : normalizeDecay a = normalizeDecay b) : normEntry a = normEntry b := by
  cases hp with
  | vnull => rfl
  | vundef => rfl
  | leaf s => rfl
  | anil => rfl
  | node m ds mid ds2 _ _ =>
      simp only [normEntry, isDecay, if_true]
      exact hnd

theorem map_eq_of_keys {β : Type} (g : Item → β) :
    ∀ (l1 l2 : List Item), l1.map sortKey = l2.map sortKey →
      (∀ a ∈ l1, ∀ b ∈ l2, sortKey a = sortKey b → g a = g b) →
      l1.map g = l2.map g
  | [], [], _, _ => rfl
  | [], _ :: _, h, _ => absurd h (by simp)
  | _ :: _, [], h, _ => absurd h (by simp)
  | a :: as, b :: bs, h, hcross => by
      simp only [List.map_cons, List.cons.injEq] at h ⊢
      exact ⟨hcross a (List.mem_cons_self a as) b (List.mem_cons_self b bs) h.1,
        map_eq_of_keys g as bs h.2
          (fun x hx y hy hk =>
            hcross x (List.mem_cons_of_mem a hx) y (List.mem_cons_of_mem b hy) hk)⟩

theorem sortedKeys_strict (l : List Item) (hnd : (l.map sortKey).Nodup) :
    ((List.insertionSort keyRel l).map sortKey).Pairwise strLt := by
  have hs : (List.insertionSort keyRel l).Pairwise keyRel :=
    List.sorted_insertionSort keyRel l
  have hmapS : ((List.insertionSort keyRel l).map sortKey).Pairwise
      (fun x y => strLe x y = true) := by
    rw [List.pairwise_map]
    exact hs
  have hnd2 : ((List.insertionSort keyRel l).map sortKey).Nodup :=
    (((List.perm_insertionSort keyRel l).map sortKey).nodup_iff).mpr hnd
  exact (hmapS.and hnd2).imp (fun hh => hh)

/-- Canonicalization maps order-equivalent trees with level-wise distinct
daughter keys to the same result. -/
theorem canonPerm_aux : ∀ (n : Nat) (t u : Item), isize t ≤ n → PermTree t u →
    distinctKeys t = true → normalizeDecay t = normalizeDecay u := by
  intro n
  induction n with
  | zero =>
      intro t _ h _ _
      exact absurd (le_trans (isize_pos t) h) (by omega)
  | succ n canonPerm_ih =>
      intro t u h hp hd
      cases hp with
      | vnull => rfl
      | vundef => rfl
      | leaf s => rfl
      | anil => rfl
      | node m ds mid ds2 hf2 hperm =>
        obtain ⟨hnodup, hdks⟩ := distinctKeys_node_inv hd
        rw [toList_ofList] at hnodup hdks
        have hds_le : isizeL (ofList ds) ≤ n := by
          simp only [isize, isizeL] at h
          omega
        have hIH : ∀ a ∈ ds, ∀ b, PermTree a b → normalizeDecay a = normalizeDecay b := by
          intro a ha b hpb
          have hle : isize a ≤ n := by
            have := isize_le_of_mem (l := ofList ds) (by rw [toList_ofList]; exact ha)
            omega
          exact canonPerm_ih a b hle hpb (hdks a ha)
        rw [normalizeDecay_node m (ofList ds), normalizeDecay_node m (ofList ds2),
          toList_ofList, toList_ofList]
        have hkeys1 : ds.map sortKey = mid.map sortKey := forall2_map_sortKey hf2
        have hK : ((List.insertionSort keyRel ds).map sortKey)
            = ((List.insertionSort keyRel ds2).map sortKey) := by
          have hperm1 : ((List.insertionSort keyRel ds).map sortKey).Perm (ds.map sortKey) :=
            (List.perm_insertionSort keyRel ds).map sortKey
          have hperm2 : ((List.insertionSort keyRel ds2).map sortKey).Perm (ds2.map sortKey) :=
            (List.perm_insertionSort keyRel ds2).map sortKey
          have hperm3 : (ds2.map sortKey).Perm (mid.map sortKey) := (hperm.symm).map sortKey
          have hchain : ((List.insertionSort keyRel ds).map sortKey).Perm
              ((List.insertionSort keyRel ds2).map sortKey) := by
            refine hperm1.trans ?_
            rw [hkeys1]
            exact (hperm3.symm).trans hperm2.symm
          have hnodup2 : (ds2.map sortKey).Nodup := by
            have : (mid.map sortKey).Nodup := hkeys1 ▸ hnodup
            exact ((hperm.map sortKey).nodup_iff).mp this
          exact List.eq_of_perm_of_sorted hchain
            (sortedKeys_strict ds hnodup) (sortedKeys_strict ds2 hnodup2)
        have hcross : ∀ a ∈ List.insertionSort keyRel ds, ∀ b ∈ List.insertionSort keyRel ds2,
            sortKey a = sortKey b → normEntry a = normEntry b := by
          intro a ha b hb hk
          have ha2 : a ∈ ds := ((List.perm_insertionSort keyRel ds).mem_iff).mp ha
          have hb2 : b ∈ mid := (hperm.mem_iff).mpr
            (((List.perm_insertionSort keyRel ds2).mem_iff).mp hb)
          obtain ⟨a0, ha0, hR⟩ := forall2_mem_right hf2 hb2
          have hk0 : sortKey a0 = sortKey a := by
            rw [permTree_sortKey hR, ← hk]
          have haa : a0 = a := List.inj_on_of_nodup_map hnodup ha0 ha2 hk0
          subst haa
          exact normEntry_congr_of_permTree hR (hIH a0 ha0 b hR)
        rw [map_eq_of_keys normEntry _ _ hK hcross]

theorem canonical_perm_invariant (t u : Item) (hp : PermTree t u)
    (hd : distinctKeys t = true) : normalizeDecay t = normalizeDecay u :=
  canonPerm_aux (isize t) t u le_rfl hp hd

/-! Reflexivity of the permutation relation (used by witnesses). -/

mutual
theorem permTree_refl : ∀ t : Item, PermTree t t
  | .vnull => .vnull
  | .vundef => .vundef
  | .str s => .leaf s
  | .arr .nil => .anil
  | .arr (.cons m ds) => by
      have h := permTree_refl_list ds
      have h2 := PermTree.node m (toList ds) (toList ds) (toList ds) h (List.Perm.refl _)
      rwa [ofList_toList] at h2
theorem permTree_refl_list : ∀ l : ItemList, List.Forall₂ PermTree (toList l) (toList l)
  | .nil => List.Forall₂.nil
  | .cons x xs => List.Forall₂.cons (permTree_refl x) (permTree_refl_list xs)
end

/-! The weight computed by the matcher against the spec's reference weight. -/

mutual
theorem getWeight_eq_specWeight : ∀ t : Item, wf t = true → getWeight t = specWeight t
  | .str _, _ => rfl
  | .vnull, hw => by simp [wf] at hw
  | .vundef, hw => by simp [wf] at hw
  | .arr .nil, hw => by simp [wf] at hw
  | .arr (.cons .vnull _), hw => by simp [wf] at hw
  | .arr (.cons .vundef _), hw => by simp [wf] at hw
  | .arr (.cons (.arr _) _), hw => by simp [wf] at hw
  | .arr (.cons (.str _) .nil), hw => by simp [wf] at hw
  | .arr (.cons (.str s) (.cons d rest)), hw => by
      simp only [wf, Bool.and_eq_true] at hw
      have hL : getWeightL (.cons d rest) = specWeightL (.cons d rest) :=
        getWeightL_eq_specWeightL (.cons d rest) (by
          simp only [wfL, Bool.and_eq_true]
          exact hw)
      simp only [getWeight, getWeightL, specWeight, specWeightL] at hL ⊢
      omega
theorem getWeightL_eq_specWeightL : ∀ l : ItemList, wfL l = true →
    getWeightL l = specWeightL l
  | .nil, _ => rfl
  | .cons x xs, h => by
      simp only [wfL, Bool.and_eq_true] at h
      simp only [getWeightL, specWeightL,
        getWeight_eq_specWeight x h.1, getWeightL_eq_specWeightL xs h.2]
end

/-! Lemmas about `decayContains`. -/

theorem decayContainsF_not_arr : ∀ (fuel : Nat) (t p : Item), isDecay t = false →
    decayContainsF (fuel + 1) t p = some false
  | _, .vnull, _, _ => rfl
  | _, .vundef, _, _ => rfl
  | fuel, .str s, p, _ => by
      by_cases hs : falsy (.str s) = true
      · simp [decayContainsF, hs]
      · rw [Bool.not_eq_true] at hs
        by_cases hp : falsy p = true
        · simp [decayContainsF, hs, hp]
        · rw [Bool.not_eq_true] at hp
          cases p <;> simp [decayContainsF, hs, hp]
  | _, .arr _, _, h => by simp [isDecay] at h

theorem decayContains_not_arr_left (t p : Item) (h : isDecay t = false) :
    decayContains t p = some false := by
  have h1 : isize t = 1 := by cases t <;> simp_all [isDecay, isize]
  unfold decayContains
  rw [h1]
  exact decayContainsF_not_arr 0 t p h

theorem decayContains_not_arr_right (t p : Item) (h : isDecay p = false) :
    decayContains t p = some false := by
  cases t with
  | vnull => rfl
  | vundef => rfl
  | str s => exact decayContains_not_arr_left _ _ rfl
  | arr ts =>
      unfold decayContains
      have h1 : isize (Item.arr ts) = isizeL ts + 1 := by simp [isize]
      rw [h1]
      by_cases hp : falsy p = true
      · simp [decayContainsF, hp]
      · rw [Bool.not_eq_true] at hp
        cases p <;> simp_all [decayContainsF, falsy, isDecay]

theorem containsListF_congr (rec1 rec2 : Item → Option Bool) :
    ∀ l : List Item, (∀ x ∈ l, isDecay x = true → rec1 x = rec2 x) →
      containsListF rec1 l = containsListF rec2 l
  | [], _ => rfl
  | x :: rest, h => by
      have hrest := containsListF_congr rec1 rec2 rest
        (fun y hy hd => h y (List.mem_cons_of_mem x hy) hd)
      cases x with
      | arr l2 =>
          have hx := h (.arr l2) (List.mem_cons_self _ _) rfl
          simp only [containsListF, hx, hrest]
      | vnull => simp only [containsListF, hrest]
      | vundef => simp only [containsListF, hrest]
      | str _ => simp only [containsListF, hrest]

theorem decayContainsF_congr : ∀ (f1 f2 : Nat) (t p : Item), isize t ≤ f1 → isize t ≤ f2 →
    decayContainsF f1 t p = decayContainsF f2 t p
  | 0, _, t, _, h1, _ => absurd (le_trans (isize_pos t) h1) (by omega)
  | _+1, 0, t, _, _, h2 => absurd (le_trans (isize_pos t) h2) (by omega)
  | f1+1, f2+1, t, p, h1, h2 => by
      by_cases hf : (falsy t || falsy p) = true
      · simp [decayContainsF, hf]
      · rw [Bool.not_eq_true] at hf
        cases t with
        | vnull => rfl
        | vundef => rfl
        | str _ => simp [decayContainsF, hf]
        | arr ts =>
            cases p with
            | vnull => simp [decayContainsF, hf]
            | vundef => simp [decayContainsF, hf]
            | str _ => simp [decayContainsF, hf]
            | arr ps =>
                have hts1 : isizeL ts ≤ f1 := by simp only [isize] at h1; omega
                have hts2 : isizeL ts ≤ f2 := by simp only [isize] at h2; omega
                simp only [decayContainsF, hf, Bool.false_eq_true, if_false]
                cases hmt : motherKey ts with
                | none => rfl
                | some sm =>
                    cases hmp : motherKey ps with
                    | none => rfl
                    | some pm =>
                        dsimp only
                        by_cases hne : sm ≠ pm
                        · rw [if_pos hne, if_pos hne]
                          refine containsListF_congr _ _ _ ?_
                          intro x hx _
                          have hmem : x ∈ toList ts := List.mem_of_mem_drop hx
                          have hle := isize_le_of_mem hmem
                          exact decayContainsF_congr f1 f2 x (.arr ps)
                            (le_trans hle hts1) (le_trans hle hts2)
                        · rw [if_neg hne, if_neg hne]
  termination_by f1 _ t _ _ _ => f1

theorem decayContains_arr_unfold (ts ps : ItemList) :
    decayContains (.arr ts) (.arr ps) =
      match motherKey ts, motherKey ps with
      | some sm, some pm =>
          if sm ≠ pm then
            containsListF (fun d => decayContainsF (isizeL ts) d (.arr ps)) ((toList ts).drop 1)
          else if decaysMatch (.arr ts) (.arr ps) then some true
          else
            some ((findMatches (.arr ts) ((toList ps).drop 1)).1 == getWeight (.arr ts)
              && ((findMatches (.arr ts) ((toList ps).drop 1)).2.isEmpty))
      | _, _ => none := by
  unfold decayContains
  have h1 : isize (Item.arr ts) = isizeL ts + 1 := by simp [isize]
  rw [h1]
  rfl

theorem contains_mothers_ne_eq (ts ps : ItemList) (kt kp : String)
    (h1 : motherKey ts = some kt) (h2 : motherKey ps = some kp) (hne : kt ≠ kp) :
    decayContains (.arr ts) (.arr ps) =
      containsListF (fun d => decayContainsF (isizeL ts) d (.arr ps)) ((toList ts).drop 1) := by
  rw [decayContains_arr_unfold, h1, h2]
  dsimp only
  rw [if_pos hne]

theorem contains_exact_match (ts ps : ItemList) (k : String)
    (h1 : motherKey ts = some k) (h2 : motherKey ps = some k)
    (hex : decaysMatch (.arr ts) (.arr ps) = true) :
    decayContains (.arr ts) (.arr ps) = some true := by
  rw [decayContains_arr_unfold, h1, h2]
  dsimp only
  rw [if_neg (by simp), if_pos hex]

theorem contains_weighted_at_node (ts ps : ItemList) (k : String)
    (h1 : motherKey ts = some k) (h2 : motherKey ps = some k)
    (hne : decaysMatch (.arr ts) (.arr ps) = false) :
    decayContains (.arr ts) (.arr ps) =
      some ((findMatches (.arr ts) ((toList ps).drop 1)).1 == getWeight (.arr ts)
        && ((findMatches (.arr ts) ((toList ps).drop 1)).2.isEmpty)) := by
  rw [decayContains_arr_unfold, h1, h2]
  dsimp only
  rw [if_neg (by simp), hne]
  simp

theorem wf_motherKey {l : ItemList} (h : wf (.arr l) = true) : ∃ k, motherKey l = some k := by
  cases l with
  | nil => simp [wf] at h
  | cons m ds =>
      obtain ⟨⟨s, rfl⟩, _, _⟩ := wf_node_inv h
      exact ⟨stripSig (normName s), rfl⟩

theorem containsListF_total (rec : Item → Option Bool) :
    ∀ l : List Item, (∀ x ∈ l, isDecay x = true → ∃ b, rec x = some b) →
      ∃ b, containsListF rec l = some b
  | [], _ => ⟨false, rfl⟩
  | x :: rest, h => by
      have hrest := containsListF_total rec rest
        (fun y hy hd => h y (List.mem_cons_of_mem x hy) hd)
      cases x with
      | arr l2 =>
          obtain ⟨b, hb⟩ := h (.arr l2) (List.mem_cons_self _ _) rfl
          cases b
          · obtain ⟨b2, hb2⟩ := hrest
            exact ⟨b2, by simp only [containsListF, hb, hb2]⟩
          · exact ⟨true, by simp only [containsListF, hb]⟩
      | vnull => exact hrest
      | vundef => exact hrest
      | str _ => exact hrest

theorem wf_daughters_drop {m : Item} {ds : ItemList}
    (h : wf (.arr (.cons m ds)) = true) :
    ∀ x ∈ (toList (ItemList.cons m ds)).drop 1, wf x = true := by
  obtain ⟨_, _, hwds⟩ := wf_node_inv h
  intro x hx
  simp only [toList, List.drop_succ_cons, List.drop_zero] at hx
  exact hwds x hx

theorem decayContains_total : ∀ (n : Nat) (t p : Item), isize t ≤ n →
    wf t = true → wf p = true → ∃ b, decayContains t p = some b
  | 0, t, _, h, _, _ => absurd (le_trans (isize_pos t) h) (by omega)
  | _+1, .vnull, p, _, _, _ => ⟨false, decayContains_not_arr_left _ p rfl⟩
  | _+1, .vundef, p, _, _, _ => ⟨false, decayContains_not_arr_left _ p rfl⟩
  | _+1, .str s, p, _, _, _ => ⟨false, decayContains_not_arr_left _ p rfl⟩
  | n+1, .arr ts, .vnull, _, _, _ => ⟨false, decayContains_not_arr_right _ _ rfl⟩
  | n+1, .arr ts, .vundef, _, _, _ => ⟨false, decayContains_not_arr_right _ _ rfl⟩
  | n+1, .arr ts, .str _, _, _, _ => ⟨false, decayContains_not_arr_right _ _ rfl⟩
  | n+1, .arr ts, .arr ps, h, hwt, hwp => by
      obtain ⟨kt, hkt⟩ := wf_motherKey hwt
      obtain ⟨kp, hkp⟩ := wf_motherKey hwp
      have hts : isizeL ts ≤ n := by simp only [isize] at h; omega
      by_cases hne : kt ≠ kp
      · rw [contains_mothers_ne_eq ts ps kt kp hkt hkp hne]
        refine containsListF_total _ _ ?_
        intro x hx _
        have hmem : x ∈ toList ts := List.mem_of_mem_drop hx
        have hle : isize x ≤ isizeL ts := isize_le_of_mem hmem
        have hwx : wf x = true := by
          cases ts with
          | nil => simp [toList] at hmem
          | cons m ds => exact wf_daughters_drop hwt x hx
        obtain ⟨b, hb⟩ := decayContains_total n x (.arr ps) (by omega) hwx hwp
        refine ⟨b, ?_⟩
        rw [← hb]
        unfold decayContains
        exact decayContainsF_congr (isizeL ts) (isize x) x (.arr ps) hle le_rfl
      · rw [Classical.not_not] at hne
        subst hne
        by_cases hex : decaysMatch (.arr ts) (.arr ps) = true
        · exact ⟨true, contains_exact_match ts ps kt hkt hkp hex⟩
        · rw [Bool.not_eq_true] at hex
          exact ⟨_, contains_weighted_at_node ts ps kt hkt hkp hex⟩

theorem list_any_congr {f g : Item → Bool} :
    ∀ l : List Item, (∀ x ∈ l, f x = g x) → l.any f = l.any g
  | [], _ => rfl
  | x :: rest, h => by
      simp only [List.any_cons, h x (List.mem_cons_self _ _),
        list_any_congr rest (fun y hy => h y (List.mem_cons_of_mem x hy))]

theorem containsListF_eq_any (rec : Item → Option Bool) :
    ∀ l : List Item,
      (∀ x ∈ l, isDecay x = true → ∃ b, rec x = some b) →
      (∀ x ∈ l, isDecay x = false → rec x = some false) →
      containsListF rec l = some (l.any (fun x => rec x == some true))
  | [], _, _ => rfl
  | x :: rest, h1, h2 => by
      have hrest := containsListF_eq_any rec rest
        (fun y hy hd => h1 y (List.mem_cons_of_mem x hy) hd)
        (fun y hy hd => h2 y (List.mem_cons_of_mem x hy) hd)
      cases x with
      | arr l2 =>
          obtain ⟨b, hb⟩ := h1 (.arr l2) (List.mem_cons_self _ _) rfl
          cases b
          · simp only [containsListF, hb, hrest, List.any_cons]
            simp [hb]
          · simp only [containsListF, hb, List.any_cons]
            simp [hb]
      | vnull =>
          have hx := h2 .vnull (List.mem_cons_self _ _) rfl
          simp only [containsListF, hrest, List.any_cons]
          simp [hx]
      | vundef =>
          have hx := h2 .vundef (List.mem_cons_self _ _) rfl
          simp only [containsListF, hrest, List.any_cons]
          simp [hx]
      | str s =>
          have hx := h2 (.str s) (List.mem_cons_self _ _) rfl
          simp only [containsListF, hrest, List.any_cons]
          simp [hx]

/-- Behaviour of `decayContains` when the sig-stripped normalized mothers
differ: the result is exactly whether some entry of `decayStructure.slice(1)`
recursively contains the pattern (non-array entries never do). -/
theorem contains_mothers_differ (ts ps : ItemList) (kt kp : String)
    (ht : wf (.arr ts) = true) (hp : wf (.arr ps) = true)
    (h1 : motherKey ts = some kt) (h2 : motherKey ps = some kp) (hne : kt ≠ kp) :
    decayContains (.arr ts) (.arr ps)
      = some (((toList ts).drop 1).any
          (fun d => decayContains d (.arr ps) == some true)) := by
  rw [contains_mothers_ne_eq ts ps kt kp h1 h2 hne]
  have hwx : ∀ x ∈ (toList ts).drop 1, wf x = true := by
    cases ts with
    | nil => intro x hx; simp [toList] at hx
    | cons m ds => exact wf_daughters_drop ht
  have hsz : ∀ x ∈ (toList ts).drop 1, isize x ≤ isizeL ts := fun x hx =>
    isize_le_of_mem (List.mem_of_mem_drop hx)
  have harr : ∀ x ∈ (toList ts).drop 1, isDecay x = true →
      ∃ b, decayContainsF (isizeL ts) x (.arr ps) = some b := by
    intro x hx _
    obtain ⟨b, hb⟩ := decayContains_total (isize x) x (.arr ps) le_rfl (hwx x hx) hp
    refine ⟨b, ?_⟩
    rw [← hb]
    unfold decayContains
    exact decayContainsF_congr (isizeL ts) (isize x) x (.arr ps) (hsz x hx) le_rfl
  have hnarr : ∀ x ∈ (toList ts).drop 1, isDecay x = false →
      decayContainsF (isizeL ts) x (.arr ps) = some false := by
    intro x hx hd
    have h1x : 1 ≤ isizeL ts := le_trans (isize_pos x) (hsz x hx)
    obtain ⟨k, hk⟩ : ∃ k, isizeL ts = k + 1 := ⟨isizeL ts - 1, by omega⟩
    rw [hk]
    exact decayContainsF_not_arr k x (.arr ps) hd
  rw [containsListF_eq_any _ _ harr hnarr]
  congr 1
  refine list_any_congr _ ?_
  intro x hx
  have heq : decayContainsF (isizeL ts) x (.arr ps) = decayContains x (.arr ps) := by
    unfold decayContains
    exact decayContainsF_congr (isizeL ts) (isize x) x (.arr ps) (hsz x hx) le_rfl
  rw [heq]

/-- C8: `parseDecayString` is total (modelled as an `Option`-valued function:
it either returns a tree or the sentinel `none`, and never throws).  It
returns the sentinel when there is no `->` at parenthesis depth 0 of the
cleaned input, when the normalized mother substring before that arrow is
empty, and when the daughter tokenizer produces zero daughters; on success
the result is `sortDecay([mother, ...daughters])` with at least one
daughter. -/
theorem c8_parse_failure_policy (s : String) :
    (parseDecayString s = none ∨
      ∃ m ds, ds ≠ [] ∧
        parseDecayString s = some (sortDecay (.arr (.cons (.str m) (ofList ds)))))
    ∧ (findArrow (cleanedOf s) 0 0 = none → parseDecayString s = none)
    ∧ (∀ i, findArrow (cleanedOf s) 0 0 = some i →
        (normName ⟨trimChars ((cleanedOf s).take i)⟩).data.isEmpty = true →
        parseDecayString s = none)
    ∧ (∀ i, findArrow (cleanedOf s) 0 0 = some i →
        tokDaughters (parseF s.length)
          (trimChars ((cleanedOf s).drop (i + 2))) [] 0 [] = [] →
        parseDecayString s = none) := by
  by_cases h0 : s.data.isEmpty
  · have hnone : parseDecayString s = none := by
      simp [parseDecayString, parseF, h0]
    exact ⟨Or.inl hnone, fun _ => hnone, fun _ _ _ => hnone, fun _ _ _ => hnone⟩
  · by_cases h1 : (trimChars (stripCC s.data)).isEmpty
    · have hnone : parseDecayString s = none := by
        simp [parseDecayString, parseF, h0, h1]
      exact ⟨Or.inl hnone, fun _ => hnone, fun _ _ _ => hnone, fun _ _ _ => hnone⟩
    · cases hfa : findArrow (cleanedOf s) 0 0 with
      | none =>
          have hnone : parseDecayString s = none := by
            simp only [cleanedOf] at hfa
            simp [parseDecayString, parseF, h0, h1, hfa]
          exact ⟨Or.inl hnone, fun _ => hnone, fun _ _ _ => hnone, fun _ _ _ => hnone⟩
      | some i =>
          have hfa2 : findArrow (stripOuterBrackets (trimChars (stripCC s.data))) 0 0
              = some i := by simpa [cleanedOf] using hfa
          by_cases hMD : ((normName ⟨trimChars ((cleanedOf s).take i)⟩).data.isEmpty
              || (trimChars ((cleanedOf s).drop (i + 2))).isEmpty) = true
          · have hnone : parseDecayString s = none := by
              simp only [cleanedOf] at hMD
              simp [parseDecayString, parseF, h0, h1, hfa2, hMD]
            exact ⟨Or.inl hnone, fun _ => hnone, fun _ _ _ => hnone, fun _ _ _ => hnone⟩
          · by_cases hD : tokDaughters (parseF s.length)
                (trimChars ((cleanedOf s).drop (i + 2))) [] 0 [] = []
            · have hnone : parseDecayString s = none := by
                simp only [cleanedOf] at hMD hD
                simp [parseDecayString, parseF, h0, h1, hfa2, hMD, hD]
              exact ⟨Or.inl hnone, fun _ => hnone, fun _ _ _ => hnone, fun _ _ _ => hnone⟩
            · have hsome : parseDecayString s =
                  some (sortDecay (.arr (.cons
                    (.str (normName ⟨trimChars ((cleanedOf s).take i)⟩))
                    (ofList (tokDaughters (parseF s.length)
                      (trimChars ((cleanedOf s).drop (i + 2))) [] 0 []))))) := by
                have hMD2 := hMD
                have hD2 := hD
                simp only [cleanedOf] at hMD2 hD2
                simp [parseDecayString, parseF, h0, h1, hfa2, hMD2, hD2]
                simp [cleanedOf]
              refine ⟨Or.inr ⟨_, _, hD, hsome⟩, ?_, ?_, ?_⟩
              · intro hcontra
                exact Option.noConfusion hcontra
              · intro i2 hi2 hempty
                obtain rfl : i = i2 := Option.some.inj hi2
                rw [Bool.or_eq_true] at hMD
                push_neg at hMD
                exact absurd hempty (by simpa using hMD.1)
              · intro i2 hi2 htok
                obtain rfl : i = i2 := Option.some.inj hi2
                exact absurd htok hD

/-! Heap lemmas: the heap-level sort and normalize only append fresh cells. -/

theorem mapSortH_ext (f : Heap → HVal → Heap × HVal)
    (hf : ∀ h0 v, ∃ ext, (f h0 v).1 = h0 ++ ext) :
    ∀ (h0 : Heap) (l : List HVal), ∃ ext, (mapSortH f h0 l).1 = h0 ++ ext
  | h0, [] => ⟨[], by simp [mapSortH]⟩
  | h0, v :: rest => by
      simp only [mapSortH]
      by_cases hv : isArrH v = true
      · obtain ⟨ext1, he1⟩ := hf h0 v
        obtain ⟨ext2, he2⟩ := mapSortH_ext f hf (f h0 v).1 rest
        rw [he1] at he2
        exact ⟨ext1 ++ ext2, by simp [hv, he1, he2, List.append_assoc]⟩
      · rw [Bool.not_eq_true] at hv
        obtain ⟨ext2, he2⟩ := mapSortH_ext f hf h0 rest
        exact ⟨ext2, by simp [hv, he2]⟩

theorem sortDecayHF_ext : ∀ (fuel : Nat) (h : Heap) (v : HVal),
    ∃ ext, (sortDecayHF fuel h v).1 = h ++ ext
  | 0, h, _ => ⟨[], by simp [sortDecayHF]⟩
  | fuel+1, h, .hnull => ⟨[], by simp [sortDecayHF]⟩
  | fuel+1, h, .hundef => ⟨[], by simp [sortDecayHF]⟩
  | fuel+1, h, .hstr _ => ⟨[], by simp [sortDecayHF]⟩
  | fuel+1, h, .href r => by
      simp only [sortDecayHF]
      cases hcell : h[r]? with
      | none => exact ⟨[], by simp⟩
      | some items =>
          cases items with
          | nil => exact ⟨[], by simp⟩
          | cons m ds =>
              obtain ⟨ext1, he1⟩ :=
                mapSortH_ext (sortDecayHF fuel) (fun h0 v0 => sortDecayHF_ext fuel h0 v0) h
                  (List.insertionSort (keyRelH h) ds)
              refine ⟨ext1 ++ [m :: (mapSortH (sortDecayHF fuel) h
                (List.insertionSort (keyRelH h) ds)).2], ?_⟩
              simp [he1, List.append_assoc]

theorem sortDecayH_ext (h : Heap) (v : HVal) : ∃ ext, (sortDecayH h v).1 = h ++ ext :=
  sortDecayHF_ext (h.length + 1) h v

theorem mapNormH_ext (f : Heap → HVal → Heap × HVal)
    (hf : ∀ h0 v, ∃ ext, (f h0 v).1 = h0 ++ ext) :
    ∀ (h0 : Heap) (l : List HVal), ∃ ext, (mapNormH f h0 l).1 = h0 ++ ext
  | h0, [] => ⟨[], by simp [mapNormH]⟩
  | h0, v :: rest => by
      simp only [mapNormH]
      by_cases hv : isArrH v = true
      · obtain ⟨ext1, he1⟩ := hf h0 v
        obtain ⟨ext2, he2⟩ := mapNormH_ext f hf (f h0 v).1 rest
        rw [he1] at he2
        exact ⟨ext1 ++ ext2, by simp [hv, he1, he2, List.append_assoc]⟩
      · rw [Bool.not_eq_true] at hv
        obtain ⟨ext2, he2⟩ := mapNormH_ext f hf h0 rest
        exact ⟨ext2, by simp [hv, he2]⟩

theorem normalizeDecayHF_ext : ∀ (fuel : Nat) (h : Heap) (v : HVal),
    ∃ ext, (normalizeDecayHF fuel h v).1 = h ++ ext
  | 0, h, _ => ⟨[], by simp [normalizeDecayHF]⟩
  | fuel+1, h, .hnull => ⟨[], by simp [normalizeDecayHF]⟩
  | fuel+1, h, .hundef => ⟨[], by simp [normalizeDecayHF]⟩
  | fuel+1, h, .hstr _ => ⟨[], by simp [normalizeDecayHF]⟩
  | fuel+1, h, .href r => by
      simp only [normalizeDecayHF]
      obtain ⟨ext0, he0⟩ := sortDecayH_ext h (.href r)
      cases hsd : sortDecayH h (.href r) with
      | mk h1 v1 =>
          rw [hsd] at he0
          simp only at he0
          cases v1 with
          | href r2 =>
              obtain ⟨ext2, he2⟩ :=
                mapNormH_ext (normalizeDecayHF fuel)
                  (fun h0 v0 => normalizeDecayHF_ext fuel h0 v0) h1 (h1.getD r2 [])
              refine ⟨ext0 ++ (ext2 ++ [(mapNormH (normalizeDecayHF fuel) h1
                (h1.getD r2 [])).2]), ?_⟩
              simp only []
              rw [he2, he0]
              simp [List.append_assoc]
          | hnull => exact ⟨ext0, by simp [he0]⟩
          | hundef => exact ⟨ext0, by simp [he0]⟩
          | hstr _ => exact ⟨ext0, by simp [he0]⟩

theorem normalizeDecayH_ext (h : Heap) (v : HVal) :
    ∃ ext, (normalizeDecayH h v).1 = h ++ ext :=
  normalizeDecayHF_ext (h.length + 1) h v

theorem sortDecayH_fresh (h : Heap) (r : Nat) (m : HVal) (ds : List HVal)
    (hcell : h[r]? = some (m :: ds)) :
    ∃ ext n, sortDecayH h (.href r) = (h ++ ext, .href n) ∧ h.length ≤ n := by
  unfold sortDecayH
  simp only [sortDecayHF, hcell]
  obtain ⟨ext1, he1⟩ :=
    mapSortH_ext (sortDecayHF h.length) (fun h0 v0 => sortDecayHF_ext h.length h0 v0) h
      (List.insertionSort (keyRelH h) ds)
  refine ⟨ext1 ++ [m :: (mapSortH (sortDecayHF h.length) h
    (List.insertionSort (keyRelH h) ds)).2],
    (mapSortH (sortDecayHF h.length) h (List.insertionSort (keyRelH h) ds)).1.length,
    ?_, ?_⟩
  · simp [he1, List.append_assoc]
  · rw [he1]
    simp

theorem normalizeDecayH_fresh (h : Heap) (r : Nat) (items : List HVal)
    (hcell : h[r]? = some items) :
    ∃ ext n, normalizeDecayH h (.href r) = (h ++ ext, .href n) ∧ h.length ≤ n := by
  have hshape : ∃ h1 n1, sortDecayH h (.href r) = (h1, .href n1) ∧
      ∃ ext0, h1 = h ++ ext0 := by
    cases items with
    | nil =>
        refine ⟨h, r, ?_, ⟨[], by simp⟩⟩
        unfold sortDecayH
        simp [sortDecayHF, hcell]
    | cons m ds =>
        obtain ⟨ext, n, heq, _⟩ := sortDecayH_fresh h r m ds hcell
        exact ⟨h ++ ext, n, heq, ⟨ext, rfl⟩⟩
  obtain ⟨h1, n1, heq, ext0, hext0⟩ := hshape
  unfold normalizeDecayH
  have hlen : h.length + 1 = h.length + 1 := rfl
  simp only [normalizeDecayHF, heq]
  obtain ⟨ext2, he2⟩ :=
    mapNormH_ext (normalizeDecayHF h.length)
      (fun h0 v0 => normalizeDecayHF_ext h.length h0 v0) h1 (h1.getD n1 [])
  refine ⟨ext0 ++ (ext2 ++ [(mapNormH (normalizeDecayHF h.length) h1
      (h1.getD n1 [])).2]),
    (mapNormH (normalizeDecayHF h.length) h1 (h1.getD n1 [])).1.length, ?_, ?_⟩
  · rw [he2, hext0]
    simp [List.append_assoc]
  · rw [he2, hext0]
    simp

/-!
Claim theorems.  Each claim of the specification is settled by exactly one
theorem below; corrected claims additionally carry a closed counterexample
refuting the claim as stated, and theorems with hypotheses carry a closed
witness.
-/

set_option maxRecDepth 40000

/-- C1 counterexample: target `[A, y, [A, x]]` and pattern `[A, x]` have
matching mothers, the exact check fails, the weighted sub-match fails
(matched weight 1 differs from target weight 2), and the sub-decay daughter
`[A, x]` does contain the pattern — yet `decayContains` returns `false`:
there is no fall-through to deeper match points. -/
theorem c1_counterexample :
    motherKey (ItemList.cons (.str "A") (.cons (.str "y")
        (.cons (node "A" [.str "x"]) .nil))) = some "A"
    ∧ motherKey (ItemList.cons (.str "A") (.cons (.str "x") .nil)) = some "A"
    ∧ decaysMatch (node "A" [.str "y", node "A" [.str "x"]]) (node "A" [.str "x"]) = false
    ∧ (findMatches (node "A" [.str "y", node "A" [.str "x"]]) [.str "x"]).1
        ≠ getWeight (node "A" [.str "y", node "A" [.str "x"]])
    ∧ (node "A" [.str "x"]) ∈ extractDaughters (node "A" [.str "y", node "A" [.str "x"]])
    ∧ decayContains (node "A" [.str "x"]) (node "A" [.str "x"]) = some true
    ∧ decayContains (node "A" [.str "y", node "A" [.str "x"]]) (node "A" [.str "x"])
        = some false := by
  decide

/-- C1 (amended): when the sig-stripped normalized mothers of two well-formed
trees coincide and the exact-equality check fails, `decayContains` returns
exactly the verdict of the weighted sub-match (matched weight equals the
target's weight and the pending list is emptied); it does not fall through to
sub-decay daughters of the target. -/
theorem c1_no_fallthrough (ts ps : ItemList) (k : String)
    (ht : wf (.arr ts) = true) (hp : wf (.arr ps) = true)
    (h1 : motherKey ts = some k) (h2 : motherKey ps = some k)
    (hne : decaysMatch (.arr ts) (.arr ps) = false) :
    decayContains (.arr ts) (.arr ps) =
      some ((findMatches (.arr ts) ((toList ps).drop 1)).1 == getWeight (.arr ts)
        && ((findMatches (.arr ts) ((toList ps).drop 1)).2.isEmpty)) :=
  contains_weighted_at_node ts ps k h1 h2 hne

/-- Witness for C1 at a concrete input. -/
theorem c1_no_fallthrough_witness :
    decayContains (.arr (ItemList.cons (.str "A") (.cons (.str "y") .nil)))
        (.arr (ItemList.cons (.str "A") (.cons (.str "z") .nil))) =
      some ((findMatches (.arr (ItemList.cons (.str "A") (.cons (.str "y") .nil)))
          ((toList (ItemList.cons (.str "A") (.cons (.str "z") .nil))).drop 1)).1
        == getWeight (.arr (ItemList.cons (.str "A") (.cons (.str "y") .nil)))
        && ((findMatches (.arr (ItemList.cons (.str "A") (.cons (.str "y") .nil)))
          ((toList (ItemList.cons (.str "A") (.cons (.str "z") .nil))).drop 1)).2.isEmpty)) :=
  c1_no_fallthrough (ItemList.cons (.str "A") (.cons (.str "y") .nil))
    (ItemList.cons (.str "A") (.cons (.str "z") .nil)) "A"
    (by decide) (by decide) (by decide) (by decide) (by decide)

/-- C2: evaluation of the code at the failing input.  The target node
`[A, pi+, pi+]` has two equal-named daughters; the pattern `[A, pi+]` lists
only one copy.  The all-daughters rule of `findMatches` nevertheless fires
(its `every`-`includes` test is set membership, not multiplicity), consuming
the single pending `pi+` and crediting the full node weight 2, so the
partial final state is accepted: `decayContains` returns `true`. -/
theorem c2_failing_input_eval :
    findMatches (node "A" [.str "pi+", .str "pi+"]) [.str "pi+"] = (2, [])
    ∧ getWeight (node "A" [.str "pi+", .str "pi+"]) = 2
    ∧ decayContains (node "A" [.str "pi+", .str "pi+"]) (node "A" [.str "pi+"])
        = some true := by
  decide

/-- C3: on every well-formed tree the weight function used by the matcher
agrees with the reference definition of the spec: a leaf weighs 1 and a decay
node weighs the sum of its daughters' weights, the mother contributing
nothing. -/
theorem c3_weight_refines_spec (t : Item) (hw : wf t = true) :
    getWeight t = specWeight t :=
  getWeight_eq_specWeight t hw

/-- Witness for C3 at a concrete input. -/
theorem c3_weight_refines_spec_witness :
    wf (node "B" [node "L" [.str "K-", .str "p+"], .str "g"]) = true
    ∧ getWeight (node "B" [node "L" [.str "K-", .str "p+"], .str "g"])
        = specWeight (node "B" [node "L" [.str "K-", .str "p+"], .str "g"]) :=
  ⟨by decide, c3_weight_refines_spec _ (by decide)⟩

/-- C4 counterexample: the normalized mothers `B0sig` and `B0` differ, the
target has no sub-decay daughter at all, yet `decayContains` returns `true`:
the containment check strips a trailing `sig` before comparing mothers, so
unequal normalized mothers can still match at the node itself. -/
theorem c4_counterexample :
    normName "B0sig" ≠ normName "B0"
    ∧ (extractDaughters (node "B0sig" [.str "K-"])).all (fun d => !isDecay d) = true
    ∧ decayContains (node "B0sig" [.str "K-"]) (node "B0" [.str "K-"]) = some true := by
  decide

/-- C4 (amended): when the normalized, sig-stripped mothers differ,
`decayContains` returns `true` exactly when some entry of the target's
daughter list recursively contains the pattern (non-array entries never
do). -/
theorem c4_mothers_differ (ts ps : ItemList) (kt kp : String)
    (ht : wf (.arr ts) = true) (hp : wf (.arr ps) = true)
    (h1 : motherKey ts = some kt) (h2 : motherKey ps = some kp) (hne : kt ≠ kp) :
    decayContains (.arr ts) (.arr ps)
      = some (((toList ts).drop 1).any
          (fun d => decayContains d (.arr ps) == some true)) :=
  contains_mothers_differ ts ps kt kp ht hp h1 h2 hne

/-- Witness for C4 at a concrete input. -/
theorem c4_mothers_differ_witness :
    decayContains (.arr (ItemList.cons (.str "B") (.cons (node "C" [.str "x"]) .nil)))
        (.arr (ItemList.cons (.str "C") (.cons (.str "x") .nil)))
      = some (((toList (ItemList.cons (.str "B") (.cons (node "C" [.str "x"]) .nil))).drop 1).any
          (fun d => decayContains d
            (.arr (ItemList.cons (.str "C") (.cons (.str "x") .nil))) == some true)) :=
  c4_mothers_differ (ItemList.cons (.str "B") (.cons (node "C" [.str "x"]) .nil))
    (ItemList.cons (.str "C") (.cons (.str "x") .nil)) "B" "C"
    (by decide) (by decide) (by decide) (by decide) (by decide)

/-- C5: parsing the two descriptor strings and running the containment check
rejects the partial final state: the pattern names only 3 of the 4 final-state
particles, the matched weight 2 differs from the target weight 4, and
`decayContains` returns `false`. -/
theorem c5_rejects_partial_final_state :
    parseDecayString "B0sig -> (Lambda(1520)0 -> K- p+) (anti-Lambda(1520)0 -> K+ anti-p-)"
      = some (node "B0sig" [node "Lambda(1520)0" [.str "K-", .str "p+"],
          node "anti-Lambda(1520)0" [.str "K+", .str "anti-p-"]])
    ∧ parseDecayString "B0sig -> K- p+ K+"
      = some (node "B0sig" [.str "K+", .str "K-", .str "p+"])
    ∧ getWeight (node "B0sig" [node "Lambda(1520)0" [.str "K-", .str "p+"],
          node "anti-Lambda(1520)0" [.str "K+", .str "anti-p-"]]) = 4
    ∧ decayContains
        (node "B0sig" [node "Lambda(1520)0" [.str "K-", .str "p+"],
          node "anti-Lambda(1520)0" [.str "K+", .str "anti-p-"]])
        (node "B0sig" [.str "K+", .str "K-", .str "p+"])
      = some false := by
  decide

/-- C6 counterexample: a well-formed tree whose daughter names carry a
`[...]cc` marker.  Sorting happens on the raw names before normalization, so
the first canonicalization can leave the (now normalized) daughters out of
order and a second canonicalization reorders them: canonicalization is not
idempotent on all trees. -/
theorem c6_counterexample :
    wf (node "M" [.str "[A]ccz", .str "b"]) = true
    ∧ normalizeDecay (normalizeDecay (node "M" [.str "[A]ccz", .str "b"]))
        ≠ normalizeDecay (node "M" [.str "[A]ccz", .str "b"]) := by
  decide

/-- C6 (amended): canonicalization is idempotent on every well-formed tree
whose names are already normalized (no `[...]cc` marker, no surrounding
whitespace), the markers being the only way normalization can change a name
and hence the sort order between the first and a second canonicalization. -/
theorem c6_canonical_idempotent (t : Item) (hw : wf t = true)
    (hn : namesNormed t = true) :
    normalizeDecay (normalizeDecay t) = normalizeDecay t :=
  canonical_idem t hw hn

/-- Witness for C6 at a concrete input. -/
theorem c6_canonical_idempotent_witness :
    wf (node "M" [.str "b", .str "a"]) = true
    ∧ namesNormed (node "M" [.str "b", .str "a"]) = true
    ∧ normalizeDecay (normalizeDecay (node "M" [.str "b", .str "a"]))
        = normalizeDecay (node "M" [.str "b", .str "a"]) :=
  ⟨by decide, by decide, c6_canonical_idempotent _ (by decide) (by decide)⟩

/-- C7 counterexample: two well-formed trees with the same mother and the
same daughter multiset, differing only in the order of two sub-decay
daughters that share the sort key `B`.  The stable sort preserves the input
order of the tie, so the canonical forms differ: canonicalization is not
invariant under all daughter permutations. -/
theorem c7_counterexample :
    wf (node "A" [node "B" [.str "x"], node "B" [.str "y"]]) = true
    ∧ PermTree (node "A" [node "B" [.str "x"], node "B" [.str "y"]])
        (node "A" [node "B" [.str "y"], node "B" [.str "x"]])
    ∧ normalizeDecay (node "A" [node "B" [.str "x"], node "B" [.str "y"]])
        ≠ normalizeDecay (node "A" [node "B" [.str "y"], node "B" [.str "x"]]) := by
  refine ⟨by decide, ?_, by decide⟩
  exact PermTree.node (.str "A")
    [node "B" [.str "x"], node "B" [.str "y"]]
    [node "B" [.str "x"], node "B" [.str "y"]]
    [node "B" [.str "y"], node "B" [.str "x"]]
    (List.Forall₂.cons (permTree_refl _)
      (List.Forall₂.cons (permTree_refl _) List.Forall₂.nil))
    (List.Perm.swap _ _ _)

/-- C7 (amended): canonicalization is invariant under permutations of the
daughter lists at any level for every well-formed tree in which, at every
level, no two daughters share a sort key; with duplicate keys the stable sort
keeps the input order of the tied daughters, so distinct canonical forms can
result. -/
theorem c7_canonical_perm_invariant (t u : Item) (hw : wf t = true)
    (hp : PermTree t u) (hd : distinctKeys t = true) :
    normalizeDecay t = normalizeDecay u :=
  canonical_perm_invariant t u hp hd

/-- Witness for C7 at a concrete input. -/
theorem c7_canonical_perm_invariant_witness :
    normalizeDecay (node "M" [.str "b", node "a" [.str "x"]])
      = normalizeDecay (node "M" [node "a" [.str "x"], .str "b"]) :=
  c7_canonical_perm_invariant _ _ (by decide)
    (PermTree.node (.str "M")
      [.str "b", node "a" [.str "x"]]
      [.str "b", node "a" [.str "x"]]
      [node "a" [.str "x"], .str "b"]
      (List.Forall₂.cons (permTree_refl _)
        (List.Forall₂.cons (permTree_refl _) List.Forall₂.nil))
      (List.Perm.swap _ _ _))
    (by decide)

/-- Witness for C8 at concrete inputs: no top-level arrow, empty mother, and
zero daughters each yield the sentinel. -/
theorem c8_parse_failure_policy_witness :
    parseDecayString "abc" = none
    ∧ parseDecayString " -> x" = none
    ∧ parseDecayString "a -> (" = none :=
  ⟨(c8_parse_failure_policy "abc").2.1 (by decide),
   (c8_parse_failure_policy " -> x").2.2.1 0 (by decide) (by decide),
   (c8_parse_failure_policy "a -> (").2.2.2 2 (by decide) (by decide)⟩

/-- C9: over the explicit-heap model, `sortDecay` and `normalizeDecay` only
append fresh cells: every cell of the input heap is unchanged (so the
argument tree's element sequence at every level is identical before and
after), and for a well-formed (non-empty-cell) array argument the returned
reference is a newly allocated cell, not any existing one. -/
theorem c9_no_mutation (h : Heap) (v : HVal) :
    (∃ ext, (sortDecayH h v).1 = h ++ ext)
    ∧ (∃ ext, (normalizeDecayH h v).1 = h ++ ext)
    ∧ (∀ i, i < h.length → ((sortDecayH h v).1)[i]? = h[i]?)
    ∧ (∀ i, i < h.length → ((normalizeDecayH h v).1)[i]? = h[i]?)
    ∧ (∀ r m ds, v = .href r → h[r]? = some (m :: ds) →
        ∃ ext n, sortDecayH h v = (h ++ ext, .href n) ∧ h.length ≤ n)
    ∧ (∀ r items, v = .href r → h[r]? = some items →
        ∃ ext n, normalizeDecayH h v = (h ++ ext, .href n) ∧ h.length ≤ n) := by
  refine ⟨sortDecayH_ext h v, normalizeDecayH_ext h v, ?_, ?_, ?_, ?_⟩
  · intro i hi
    obtain ⟨ext, he⟩ := sortDecayH_ext h v
    rw [he]
    exact List.getElem?_append_left hi
  · intro i hi
    obtain ⟨ext, he⟩ := normalizeDecayH_ext h v
    rw [he]
    exact List.getElem?_append_left hi
  · intro r m ds hv hcell
    subst hv
    exact sortDecayH_fresh h r m ds hcell
  · intro r items hv hcell
    subst hv
    exact normalizeDecayH_fresh h r items hcell

/-- Witness for C9 at a concrete heap. -/
theorem c9_no_mutation_witness :
    (∃ ext n, sortDecayH [[HVal.hstr "p+"], [HVal.hstr "M", HVal.hstr "b", HVal.href 0]]
        (.href 1) = ([[HVal.hstr "p+"], [HVal.hstr "M", HVal.hstr "b", HVal.href 0]] ++ ext,
          .href n)
      ∧ ([[HVal.hstr "p+"], [HVal.hstr "M", HVal.hstr "b", HVal.href 0]] : Heap).length ≤ n)
    ∧ (∃ ext n, normalizeDecayH [[HVal.hstr "p+"], [HVal.hstr "M", HVal.hstr "b", HVal.href 0]]
        (.href 1) = ([[HVal.hstr "p+"], [HVal.hstr "M", HVal.hstr "b", HVal.href 0]] ++ ext,
          .href n)
      ∧ ([[HVal.hstr "p+"], [HVal.hstr "M", HVal.hstr "b", HVal.href 0]] : Heap).length ≤ n) :=
  ⟨(c9_no_mutation [[HVal.hstr "p+"], [HVal.hstr "M", HVal.hstr "b", HVal.href 0]]
      (.href 1)).2.2.2.2.1 1 (HVal.hstr "M") [HVal.hstr "b", HVal.href 0] rfl (by decide),
   (c9_no_mutation [[HVal.hstr "p+"], [HVal.hstr "M", HVal.hstr "b", HVal.href 0]]
      (.href 1)).2.2.2.2.2 1 [HVal.hstr "M", HVal.hstr "b", HVal.href 0] rfl (by decide)⟩

/-- C10: when either argument of `decayContains` is `null`, `undefined`, or
not an array (for example a bare particle-name string), the function returns
`false` without throwing (modelled: the `Option`-valued embedding yields
`some false`, the `none` of a thrown exception being impossible on these
inputs). -/
theorem c10_contains_non_tree (t p : Item)
    (h : isDecay t = false ∨ isDecay p = false) :
    decayContains t p = some false := by
  rcases h with h | h
  · exact decayContains_not_arr_left t p h
  · exact decayContains_not_arr_right t p h

/-- Witness for C10 at concrete inputs. -/
theorem c10_contains_non_tree_witness :
    decayContains .vnull (node "A" [.str "x"]) = some false
    ∧ decayContains (node "A" [.str "x"]) (.str "B") = some false :=
  ⟨c10_contains_non_tree .vnull (node "A" [.str "x"]) (Or.inl (by decide)),
   c10_contains_non_tree (node "A" [.str "x"]) (.str "B") (Or.inr (by decide))⟩

/-- C10 counterexample: the public predicate is not total over arbitrary
inputs.  Both arguments being arrays passes the guards, and an empty array
then makes the source call `.replace` on `undefined` — a thrown `TypeError`,
modelled as `none`. -/
theorem c10_counterexample :
    decayContains (.arr .nil) (node "A" [.str "x"]) = none := by
  decide
